import Mathlib

/-!
BlackRock (Go port): a shallow embedding and its verification.

The Go package `blackrock_go` (file `blackrock.go`) implements the BlackRock
format-preserving shuffle of masscan: a generalised Feistel network over a grid
`a × b` that covers the range `[0, inputSize)`, wrapped in a cycle-walking loop.

Conventions of the embedding.

* A `uint64` is a natural number below `2 ^ 64`; every arithmetic operation of the
  source is followed by an explicit reduction modulo `2 ^ 64` (`add64`, `mul64`,
  `sub64`, `shl64`), and a `byte` operation by a reduction modulo `2 ^ 8` (`shl8`).
* A Go `int` (the number of rounds) is an integer; the loop counter `j` of `encrypt`
  does not wrap around, which in the program holds for every `r` below `2 ^ 63 - 1`.
* A Go function that can panic or contains a loop without a bound returns an
  `Outcome`: `ok v`, the panic `divideByZero`, or `outOfFuel` when the loop is still
  running after the number of iterations granted by the `fuel` argument.  A result
  `ok v` does not depend on the fuel that was granted.
* The three `float64` operations of `InitBlackrock` (the conversion of `inputSize`,
  `math.Sqrt`, and the additions of `-2` and `3`) are computed exactly as IEEE-754
  binary64 does, with round-to-nearest-even to 53 significant bits, on fixed-point
  numbers with 52 fractional bits.
-/

namespace BlackrockGo

/-! ## Results of partial computations -/

/-- Result of running a piece of the Go program. -/
inductive Outcome (α : Type) where
  /-- the function returned `v` -/
  | ok (v : α)
  /-- run-time panic: integer divide by zero -/
  | divideByZero
  /-- the loop was still running when the granted iterations were used up -/
  | outOfFuel
  deriving DecidableEq, Repr

/-- Sequencing of partial computations. -/
def Outcome.bind {α β : Type} (x : Outcome α) (f : α → Outcome β) : Outcome β :=
  match x with
  | .ok v => f v
  | .divideByZero => .divideByZero
  | .outOfFuel => .outOfFuel

/-! ## Machine arithmetic -/

/-- `x + y` on `uint64`. -/
def add64 (x y : Nat) : Nat := (x + y) % 2 ^ 64

/-- `x * y` on `uint64`. -/
def mul64 (x y : Nat) : Nat := (x * y) % 2 ^ 64

/-- `x - y` on `uint64` (wraps around below zero). -/
def sub64 (x y : Nat) : Nat := (x % 2 ^ 64 + (2 ^ 64 - y % 2 ^ 64)) % 2 ^ 64

/-- `x << s` on `uint64` with an unsigned shift count: zero once `s ≥ 64`. -/
def shl64 (x s : Nat) : Nat := if s < 64 then (x <<< s) % 2 ^ 64 else 0

/-- `x >> s` on `uint64` with an unsigned shift count: zero once `s ≥ 64`. -/
def shr64 (x s : Nat) : Nat := if s < 64 then x >>> s else 0

/-- `x << s` on `byte`: the result is again a byte, zero once `s ≥ 8`. -/
def shl8 (x s : Nat) : Nat := if s < 8 then (x <<< s) % 2 ^ 8 else 0

/-- `x % y` on `uint64`, a run-time panic when `y = 0`. -/
def mod64 (x y : Nat) : Outcome Nat := if y = 0 then .divideByZero else .ok (x % y)

/-- `x / y` on `uint64`, a run-time panic when `y = 0`. -/
def div64 (x y : Nat) : Outcome Nat := if y = 0 then .divideByZero else .ok (x / y)

/-! ## The s-box -/

/-- The table `sbox` of the source, 256 bytes. -/
def sbox : List Nat := [
  0x91, 0x58, 0xb3, 0x31, 0x6c, 0x33, 0xda, 0x88,
  0x57, 0xdd, 0x8c, 0xf2, 0x29, 0x5a, 0x08, 0x9f,
  0x49, 0x34, 0xce, 0x99, 0x9e, 0xbf, 0x0f, 0x81,
  0xd4, 0x2f, 0x92, 0x3f, 0x95, 0xf5, 0x23, 0x00,
  0x0d, 0x3e, 0xa8, 0x90, 0x98, 0xdd, 0x20, 0x00,
  0x03, 0x69, 0x0a, 0xca, 0xba, 0x12, 0x08, 0x41,
  0x6e, 0xb9, 0x86, 0xe4, 0x50, 0xf0, 0x84, 0xe2,
  0xb3, 0xb3, 0xc8, 0xb5, 0xb2, 0x2d, 0x18, 0x70,

  0x0a, 0xd7, 0x92, 0x90, 0x9e, 0x1e, 0x0c, 0x1f,
  0x08, 0xe8, 0x06, 0xfd, 0x85, 0x2f, 0xaa, 0x5d,
  0xcf, 0xf9, 0xe3, 0x55, 0xb9, 0xfe, 0xa6, 0x7f,
  0x44, 0x3b, 0x4a, 0x4f, 0xc9, 0x2f, 0xd2, 0xd3,
  0x8e, 0xdc, 0xae, 0xba, 0x4f, 0x02, 0xb4, 0x76,
  0xba, 0x64, 0x2d, 0x07, 0x9e, 0x08, 0xec, 0xbd,
  0x52, 0x29, 0x07, 0xbb, 0x9f, 0xb5, 0x58, 0x6f,
  0x07, 0x55, 0xb0, 0x34, 0x74, 0x9f, 0x05, 0xb2,

  0xdf, 0xa9, 0xc6, 0x2a, 0xa3, 0x5d, 0xff, 0x10,
  0x40, 0xb3, 0xb7, 0xb4, 0x63, 0x6e, 0xf4, 0x3e,
  0xee, 0xf6, 0x49, 0x52, 0xe3, 0x11, 0xb3, 0xf1,
  0xfb, 0x60, 0x48, 0xa1, 0xa4, 0x19, 0x7a, 0x2e,
  0x90, 0x28, 0x90, 0x8d, 0x5e, 0x8c, 0x8c, 0xc4,
  0xf2, 0x4a, 0xf6, 0xb2, 0x19, 0x83, 0xea, 0xed,
  0x6d, 0xba, 0xfe, 0xd8, 0xb6, 0xa3, 0x5a, 0xb4,
  0x48, 0xfa, 0xbe, 0x5c, 0x69, 0xac, 0x3c, 0x8f,

  0x63, 0xaf, 0xa4, 0x42, 0x25, 0x50, 0xab, 0x65,
  0x80, 0x65, 0xb9, 0xfb, 0xc7, 0xf2, 0x2d, 0x5c,
  0xe3, 0x4c, 0xa4, 0xa6, 0x8e, 0x07, 0x9c, 0xeb,
  0x41, 0x93, 0x65, 0x44, 0x4a, 0x86, 0xc1, 0xf6,
  0x2c, 0x97, 0xfd, 0xf4, 0x6c, 0xdc, 0xe1, 0xe0,
  0x28, 0xd9, 0x89, 0x7b, 0x09, 0xe2, 0xa0, 0x38,
  0x74, 0x4a, 0xa6, 0x5e, 0xd2, 0xe2, 0x4d, 0xf3,
  0xf4, 0xc6, 0xbc, 0xa2, 0x51, 0x58, 0xe8, 0xae]

/-- The array access `sbox[i]`; every index the program computes is below 256. -/
def sboxAt (i : Nat) : Nat := sbox.getD i 0

/-! ## The engine -/

/-- The struct `BlackRock`. -/
structure BlackRock where
  inputSize : Nat
  a : Nat
  b : Nat
  seed : Nat
  rounds : Int
  deriving DecidableEq, Repr

/-! ## The round function -/

/-- The method `getByte`: `(((R)>>(n*8))^seed^r)&0xFF`. -/
def getByte (R n seed r : Nat) : Nat :=
  ((shr64 R (mul64 n 8)) ^^^ seed ^^^ r) &&& 0xFF

/-- The method `read`.  The shifts `<<8`, `<<16`, `<<24` act on a value of type `byte`
before the conversion to `uint64`; `<<` binds tighter than `^` in the result. -/
def read (r R seed : Nat) : Nat :=
  let R := R ^^^ ((shl64 seed r) ^^^ (shr64 seed (sub64 64 r)))
  let r0 := shl8 (sboxAt (getByte R 0 seed r)) 0 ||| shl8 (sboxAt (getByte R 1 seed r)) 8
  let r1 := (shl8 (sboxAt (getByte R 2 seed r)) 16 ||| shl8 (sboxAt (getByte R 3 seed r)) 24)
              &&& 0x0ffffFFFF
  let r2 := shl8 (sboxAt (getByte R 4 seed r)) 0 ||| shl8 (sboxAt (getByte R 5 seed r)) 8
  let r3 := (shl8 (sboxAt (getByte R 6 seed r)) 16 ||| shl8 (sboxAt (getByte R 7 seed r)) 24)
              &&& 0x0ffffFFFF
  r0 ^^^ r1 ^^^ shl64 r2 23 ^^^ shl64 r3 33

/-! ## The Feistel network -/

/-- The loop `for j=1; j<= r; j++` of `encrypt`: `n` iterations are left, the next
one has index `j`; the state is `(L, R)`. -/
def encryptLoop (a b seed : Nat) : Nat → Nat → Nat → Nat → Outcome (Nat × Nat)
  | 0, _, L, R => .ok (L, R)
  | n + 1, j, L, R =>
    (if j &&& 1 = 1 then mod64 (add64 L (read j R seed)) a
     else mod64 (add64 L (read j R seed)) b).bind
      fun tmp => encryptLoop a b seed n (j + 1) R tmp

/-- The method `encrypt`.  For an `int` in two's complement `r & 1 == 1` says that
`r` is odd, also when `r` is negative; the loop runs `r` times when `r ≥ 1` and not
at all otherwise. -/
def encrypt (r : Int) (a b m seed : Nat) : Outcome Nat :=
  (mod64 m a).bind fun L =>
  (div64 m a).bind fun R =>
  (encryptLoop a b seed r.toNat 1 L R).bind fun LR =>
  if r % 2 = 1 then .ok (add64 (mul64 a LR.1) LR.2)
  else .ok (add64 (mul64 a LR.2) LR.1)

/-- The loop `for j=r; j>= 1; j--` of `unencrypt`; the state is `(L, R)`. -/
def unencryptLoop (a b seed : Nat) : Nat → Nat → Nat → Outcome (Nat × Nat)
  | 0, L, R => .ok (L, R)
  | j + 1, L, R =>
    (if (j + 1) &&& 1 = 1 then
      let tmp := read (j + 1) L seed
      if tmp > R then
        (mod64 (sub64 tmp R) a).bind fun t =>
        let tmp := sub64 a t
        if tmp = a then .ok 0 else .ok tmp
      else
        mod64 (sub64 R tmp) a
     else
      let tmp := read (j + 1) L seed
      if tmp > R then
        (mod64 (sub64 tmp R) b).bind fun t =>
        let tmp := sub64 b t
        if tmp = b then .ok 0 else .ok tmp
      else
        mod64 (sub64 R tmp) b).bind
      fun tmp => unencryptLoop a b seed j tmp L

/-- The method `unencrypt`. -/
def unencrypt (r : Int) (a b m seed : Nat) : Outcome Nat :=
  (if r % 2 = 1 then
    (mod64 m a).bind fun R => (div64 m a).bind fun L => .ok (L, R)
   else
    (mod64 m a).bind fun L => (div64 m a).bind fun R => .ok (L, R)).bind fun LR =>
  (unencryptLoop a b seed r.toNat LR.1 LR.2).bind fun LR =>
  .ok (add64 (mul64 a LR.2) LR.1)

/-! ## Cycle walking -/

/-- The loop of `Shuffle`: while `c >= br.inputSize` the value is encrypted again.
`fuel` bounds the number of times the loop body may run. -/
def shuffleLoop (br : BlackRock) : Nat → Nat → Outcome Nat
  | 0, c => if c ≥ br.inputSize then .outOfFuel else .ok c
  | fuel + 1, c =>
    if c ≥ br.inputSize then
      (encrypt br.rounds br.a br.b c br.seed).bind (shuffleLoop br fuel)
    else .ok c

/-- The method `Shuffle`: one call of `encrypt`, then the loop. -/
def Shuffle (fuel : Nat) (br : BlackRock) (m : Nat) : Outcome Nat :=
  (encrypt br.rounds br.a br.b m br.seed).bind (shuffleLoop br fuel)

/-- The loop of `Unshuffle`. -/
def unshuffleLoop (br : BlackRock) : Nat → Nat → Outcome Nat
  | 0, c => if c ≥ br.inputSize then .outOfFuel else .ok c
  | fuel + 1, c =>
    if c ≥ br.inputSize then
      (unencrypt br.rounds br.a br.b c br.seed).bind (unshuffleLoop br fuel)
    else .ok c

/-- The method `Unshuffle`: one call of `unencrypt`, then the loop. -/
def Unshuffle (fuel : Nat) (br : BlackRock) (m : Nat) : Outcome Nat :=
  (unencrypt br.rounds br.a br.b m br.seed).bind (unshuffleLoop br fuel)

/-! ## Floating point

A non-negative `float64` value `v` that is a multiple of `2 ^ (-52)` is represented by
the natural number `v * 2 ^ 52`.  Every value that `InitBlackrock` computes on its
default branch is of this kind: `foo` is at least 1 there, so its unit in the last
place is at least `2 ^ (-52)`. -/

/-- Rounding to 53 significant bits, to nearest, ties to even: the rounding of every
IEEE-754 binary64 operation.  `k` is the number of low bits that do not fit. -/
def round53 (n : Nat) : Nat :=
  let k := Nat.log2 n - 52
  let q := n / 2 ^ k
  let r := n % 2 ^ k
  if 2 * r < 2 ^ k then q * 2 ^ k
  else if 2 ^ k < 2 * r then (q + 1) * 2 ^ k
  else if q % 2 = 0 then q * 2 ^ k
  else (q + 1) * 2 ^ k

/-- The conversion `float64(n)` of a `uint64`; the result is an integer, returned as
such (not scaled). -/
def toFloat64 (n : Nat) : Nat := round53 n

/-- The function `math.Sqrt` on an integer-valued `float64`: the correctly rounded
square root, scaled by `2 ^ 52`.  With `Y = x * 2 ^ 104` the exact scaled root is
`√Y`; `S` is its integer part, `q * 2 ^ k` the 53-bit value below it, and `√Y` is
compared with the midpoint `(q + 1/2) * 2 ^ k` by comparing the squares. -/
def sqrtFloat64 (x : Nat) : Nat :=
  let Y := x * 2 ^ 104
  let S := Nat.sqrt Y
  let k := Nat.log2 S - 52
  let q := S / 2 ^ k
  let h := (2 * q + 1) * 2 ^ k
  if 4 * Y < h * h then q * 2 ^ k
  else if h * h < 4 * Y then (q + 1) * 2 ^ k
  else if q % 2 = 0 then q * 2 ^ k
  else (q + 1) * 2 ^ k

/-- The expression `foo - 2` on scaled values; the default branch only evaluates it
where `foo ≥ 3`. -/
def subFloat64 (f c : Nat) : Nat := round53 (f - c * 2 ^ 52)

/-- The expression `foo + 3` on scaled values. -/
def addFloat64 (f c : Nat) : Nat := round53 (f + c * 2 ^ 52)

/-- The conversion `uint64(f)` of a scaled value: truncation. -/
def floatToUint64 (f : Nat) : Nat := (f / 2 ^ 52) % 2 ^ 64

/-! ## Construction -/

/-- The loop of `InitBlackrock` that increments `br.b` while
`br.a * br.b <= inputSize`; it returns the final `b`. -/
def initLoop (inputSize a : Nat) : Nat → Nat → Outcome Nat
  | 0, b => if mul64 a b ≤ inputSize then .outOfFuel else .ok b
  | fuel + 1, b =>
    if mul64 a b ≤ inputSize then initLoop inputSize a fuel (add64 b 1) else .ok b

/-- The values of `br.a` and `br.b` after the `switch` of `InitBlackrock`.  The struct
starts zeroed and a Go `case` does not fall through, so the empty cases 4, 5 and 7
leave both fields at 0. -/
def initFactors (inputSize : Nat) : Nat × Nat :=
  let foo := sqrtFloat64 (toFloat64 (mul64 inputSize 1))
  match inputSize with
  | 0 => (0, 0)
  | 1 => (1, 1)
  | 2 => (1, 2)
  | 3 => (2, 2)
  | 4 => (0, 0)
  | 5 => (0, 0)
  | 6 => (2, 3)
  | 7 => (0, 0)
  | 8 => (3, 3)
  | _ => (floatToUint64 (subFloat64 foo 2), floatToUint64 (addFloat64 foo 3))

/-- The function `InitBlackrock`. -/
def InitBlackrock (fuel : Nat) (inputSize seed : Nat) (rounds : Int) : Outcome BlackRock :=
  let ab := initFactors inputSize
  (initLoop inputSize ab.1 fuel ab.2).bind fun b =>
    .ok { inputSize := inputSize, a := ab.1, b := b, seed := seed, rounds := rounds }

/-! ## The specification's reading of the code, for comparison -/

/-- The loop of `encrypt` with the sum `L + read(j, R, seed)` taken in the natural
numbers, without the reduction modulo `2 ^ 64`. -/
def encryptLoopNat (a b seed : Nat) : Nat → Nat → Nat → Nat → Outcome (Nat × Nat)
  | 0, _, L, R => .ok (L, R)
  | n + 1, j, L, R =>
    (if j &&& 1 = 1 then mod64 (L + read j R seed) a
     else mod64 (L + read j R seed) b).bind
      fun tmp => encryptLoopNat a b seed n (j + 1) R tmp

/-- The method `encrypt` evaluated over the natural numbers: the sums of the loop and
the final `a * L + R` or `a * R + L` are not reduced modulo `2 ^ 64`. -/
def encryptNat (r : Int) (a b m seed : Nat) : Outcome Nat :=
  (mod64 m a).bind fun L =>
  (div64 m a).bind fun R =>
  (encryptLoopNat a b seed r.toNat 1 L R).bind fun LR =>
  if r % 2 = 1 then .ok (a * LR.1 + LR.2)
  else .ok (a * LR.2 + LR.1)

/-- The mixer as the specification states it: with `R'` the value xored with the
rotated seed and `s n` the substituted byte `n`, three lanes built from all eight
substituted bytes, at the bit offsets 0, 23 and 33, xored in 64-bit arithmetic. -/
def readSpec (r R seed : Nat) : Nat :=
  let R' := R ^^^ (shl64 seed r) ^^^ (shr64 seed (64 - r))
  let s := fun n : Nat => sboxAt (((R' >>> (8 * n)) ^^^ seed ^^^ r) &&& 0xFF)
  let lane0 := s 0 ||| s 1 <<< 8 ||| s 2 <<< 16 ||| s 3 <<< 24
  let lane1 := s 4 ||| s 5 <<< 8
  let lane2 := (s 6 <<< 16 ||| s 7 <<< 24) &&& 0xFFFFFFFF
  lane0 ^^^ shl64 lane1 23 ^^^ shl64 lane2 33

/-! ## Proof devices: the loops as total functions

When no modulus is zero none of the operations can panic, and the loops of
`encrypt` and `unencrypt` are compositions of total round functions. -/

/-- One iteration of the loop of `encrypt`, on the state `(L, R)`. -/
def encRound (a b seed j : Nat) (s : Nat × Nat) : Nat × Nat :=
  (s.2, add64 s.1 (read j s.2 seed) % (if j &&& 1 = 1 then a else b))

/-- The iterations `j, j + 1, ..., j + n - 1` of the loop of `encrypt`. -/
def encRounds (a b seed : Nat) : Nat → Nat → Nat × Nat → Nat × Nat
  | 0, _, s => s
  | n + 1, j, s => encRounds a b seed n (j + 1) (encRound a b seed j s)

/-- The inversion of the modular addition in `unencrypt`, for the modulus `c`. -/
def unmix (c t R : Nat) : Nat :=
  if t > R then
    if sub64 c (sub64 t R % c) = c then 0 else sub64 c (sub64 t R % c)
  else sub64 R t % c

/-- One iteration of the loop of `unencrypt`, on the state `(L, R)`. -/
def decRound (a b seed j : Nat) (s : Nat × Nat) : Nat × Nat :=
  (unmix (if j &&& 1 = 1 then a else b) (read j s.1 seed) s.2, s.1)

/-- The iterations `j, j - 1, ..., 1` of the loop of `unencrypt`. -/
def decRounds (a b seed : Nat) : Nat → Nat × Nat → Nat × Nat
  | 0, s => s
  | j + 1, s => decRounds a b seed j (decRound a b seed (j + 1) s)

/-- The value of `encrypt` when no modulus is zero. -/
def encryptVal (r : Int) (a b m seed : Nat) : Nat :=
  let s := encRounds a b seed r.toNat 1 (m % a, m / a)
  if r % 2 = 1 then add64 (mul64 a s.1) s.2 else add64 (mul64 a s.2) s.1

/-- The value of `unencrypt` when no modulus is zero. -/
def unencryptVal (r : Int) (a b m seed : Nat) : Nat :=
  let s := decRounds a b seed r.toNat (if r % 2 = 1 then (m / a, m % a) else (m % a, m / a))
  add64 (mul64 a s.2) s.1

/-- The bounds on the state before iteration `j` of the loop of `encrypt`. -/
def Grid (a b j : Nat) (s : Nat × Nat) : Prop :=
  if j &&& 1 = 1 then s.1 < a ∧ s.2 < b else s.1 < b ∧ s.2 < a

/-- The loop of `Shuffle` and of `Unshuffle` for a total step function `e`. -/
def walk (e : Nat → Nat) (N : Nat) : Nat → Nat → Outcome Nat
  | 0, c => if c ≥ N then .outOfFuel else .ok c
  | fuel + 1, c => if c ≥ N then walk e N fuel (e c) else .ok c

/-- The result of `k` successive calls of `encrypt` with the parameters of the engine,
starting from `m`. -/
def encryptIter (br : BlackRock) : Nat → Nat → Outcome Nat
  | 0, m => .ok m
  | k + 1, m => (encryptIter br k m).bind fun c => encrypt br.rounds br.a br.b c br.seed

/-- The numbers with at most 53 significant bits. -/
def Rep (c : Nat) : Prop := ∃ m e, c = m * 2 ^ e ∧ m < 2 ^ 53

/-! ## Basic facts -/

@[simp] theorem Outcome.bind_ok {α β : Type} (v : α) (f : α → Outcome β) :
    (Outcome.ok v).bind f = f v := rfl

theorem mod64_pos (x : Nat) {y : Nat} (hy : 0 < y) : mod64 x y = .ok (x % y) := by
  simp [mod64, Nat.pos_iff_ne_zero.mp hy]

theorem div64_pos (x : Nat) {y : Nat} (hy : 0 < y) : div64 x y = .ok (x / y) := by
  simp [div64, Nat.pos_iff_ne_zero.mp hy]

theorem sub64_of_le {x y : Nat} (hy : y ≤ x) (hx : x < 2 ^ 64) : sub64 x y = x - y := by
  unfold sub64; omega

theorem add64_of_lt {x y : Nat} (h : x + y < 2 ^ 64) : add64 x y = x + y := by
  unfold add64; omega

theorem mul64_of_lt {x y : Nat} (h : x * y < 2 ^ 64) : mul64 x y = x * y := by
  unfold mul64; exact Nat.mod_eq_of_lt h

theorem encryptLoop_eq {a b : Nat} (seed : Nat) (ha : 0 < a) (hb : 0 < b) :
    ∀ n j L R, encryptLoop a b seed n j L R = .ok (encRounds a b seed n j (L, R)) := by
  intro n
  induction n with
  | zero => intro j L R; rfl
  | succ n ih =>
    intro j L R
    simp only [encryptLoop, encRounds, encRound]
    by_cases hj : j &&& 1 = 1
    · simp only [hj, if_true, mod64_pos _ ha, Outcome.bind_ok, ih]
    · simp only [hj, if_false, mod64_pos _ hb, Outcome.bind_ok, ih]

theorem encrypt_eq (r : Int) {a b : Nat} (m seed : Nat) (ha : 0 < a) (hb : 0 < b) :
    encrypt r a b m seed = .ok (encryptVal r a b m seed) := by
  simp only [encrypt, encryptVal, mod64_pos _ ha, div64_pos _ ha, Outcome.bind_ok,
    encryptLoop_eq seed ha hb]
  split <;> rfl

theorem unencryptLoop_eq {a b : Nat} (seed : Nat) (ha : 0 < a) (hb : 0 < b) :
    ∀ j L R, unencryptLoop a b seed j L R = .ok (decRounds a b seed j (L, R)) := by
  intro j
  induction j with
  | zero => intro L R; rfl
  | succ j ih =>
    intro L R
    simp only [unencryptLoop, decRounds, decRound, unmix]
    by_cases hj : (j + 1) &&& 1 = 1
    · simp only [hj, if_true, mod64_pos _ ha, Outcome.bind_ok]
      split
      · split <;> simp only [Outcome.bind_ok, ih]
      · simp only [Outcome.bind_ok, ih]
    · simp only [hj, if_false, mod64_pos _ hb, Outcome.bind_ok]
      split
      · split <;> simp only [Outcome.bind_ok, ih]
      · simp only [Outcome.bind_ok, ih]

theorem unencrypt_eq (r : Int) {a b : Nat} (m seed : Nat) (ha : 0 < a) (hb : 0 < b) :
    unencrypt r a b m seed = .ok (unencryptVal r a b m seed) := by
  simp only [unencrypt, unencryptVal, mod64_pos _ ha, div64_pos _ ha, Outcome.bind_ok]
  split <;> simp only [Outcome.bind_ok, unencryptLoop_eq seed ha hb]

/-! ## The round function is small -/

set_option maxRecDepth 100000 in
theorem sbox_all_lt : ∀ i, i < 256 → sbox.getD i 0 < 256 := by
  decide

set_option maxRecDepth 100000 in
theorem sbox_length : sbox.length = 256 := by
  rfl

theorem sboxAt_lt (i : Nat) : sboxAt i < 256 := by
  unfold sboxAt
  by_cases h : i < 256
  · exact sbox_all_lt i h
  · rw [List.getD_eq_default]
    · decide
    · rw [sbox_length]
      omega

theorem shl8_zero (x : Nat) : shl8 x 0 = x % 256 := by
  simp [shl8]

theorem shl8_of_le (x : Nat) {s : Nat} (hs : 8 ≤ s) : shl8 x s = 0 := by
  simp [shl8, Nat.not_lt.mpr hs]

theorem shl64_byte_23 {x : Nat} (hx : x < 256) : shl64 x 23 = x * 2 ^ 23 := by
  simp only [shl64, Nat.shiftLeft_eq, (by decide : (23 : Nat) < 64), if_true]
  omega

theorem shl64_zero_left (s : Nat) : shl64 0 s = 0 := by
  simp [shl64]

/-- What `read` computes: only the substituted bytes 0 and 4 survive the byte shifts. -/
theorem read_eq (r R seed : Nat) :
    read r R seed =
      sboxAt (getByte (R ^^^ ((shl64 seed r) ^^^ (shr64 seed (sub64 64 r)))) 0 seed r) ^^^
      sboxAt (getByte (R ^^^ ((shl64 seed r) ^^^ (shr64 seed (sub64 64 r)))) 4 seed r)
        * 2 ^ 23 := by
  have h0 := sboxAt_lt (getByte (R ^^^ ((shl64 seed r) ^^^ (shr64 seed (sub64 64 r)))) 0 seed r)
  have h4 := sboxAt_lt (getByte (R ^^^ ((shl64 seed r) ^^^ (shr64 seed (sub64 64 r)))) 4 seed r)
  simp only [read, shl8_zero, shl8_of_le _ (by decide : 8 ≤ 8),
    shl8_of_le _ (by decide : 8 ≤ 16), shl8_of_le _ (by decide : 8 ≤ 24), Nat.or_zero,
    Nat.zero_and, Nat.xor_zero, shl64_zero_left]
  rw [Nat.mod_eq_of_lt h0, Nat.mod_eq_of_lt h4, shl64_byte_23 h4]

theorem read_lt (r R seed : Nat) : read r R seed < 2 ^ 31 := by
  rw [read_eq]
  have h0 := sboxAt_lt (getByte (R ^^^ ((shl64 seed r) ^^^ (shr64 seed (sub64 64 r)))) 0 seed r)
  have h4 := sboxAt_lt (getByte (R ^^^ ((shl64 seed r) ^^^ (shr64 seed (sub64 64 r)))) 4 seed r)
  apply Nat.xor_lt_two_pow <;> omega

/-! ## One round and its inverse -/

/-- The inversion of the modular addition recovers the left half. -/
theorem unmix_add {c L t : Nat} (hc : c < 2 ^ 63) (hL : L < c) (ht : t < 2 ^ 63) :
    unmix c t (add64 L t % c) = L := by
  have hc0 : 0 < c := by omega
  rw [add64_of_lt (by omega)]
  have hR : (L + t) % c < c := Nat.mod_lt _ hc0
  unfold unmix
  by_cases hgt : t > (L + t) % c
  · rw [if_pos hgt, sub64_of_le (le_of_lt hgt) (by omega)]
    have hw : (t - (L + t) % c) % c < c := Nat.mod_lt _ hc0
    rw [sub64_of_le (le_of_lt hw) (by omega)]
    have hmod : (L + (t - (L + t) % c) % c) % c = 0 := by
      have h1 : (L + (t - (L + t) % c)) + (L + t) % c ≡ 0 + (L + t) % c [MOD c] := by
        have : L + (t - (L + t) % c) + (L + t) % c = L + t := by omega
        rw [this, Nat.zero_add]
        exact (Nat.mod_modEq _ _).symm
      have h2 : L + (t - (L + t) % c) ≡ 0 [MOD c] := Nat.ModEq.add_right_cancel' _ h1
      have h3 : L + (t - (L + t) % c) % c ≡ L + (t - (L + t) % c) [MOD c] :=
        Nat.ModEq.add_left _ (Nat.mod_modEq _ _)
      exact h3.trans h2
    obtain ⟨d, hd⟩ := Nat.dvd_of_mod_eq_zero hmod
    have hd2 : d < 2 := by
      by_contra hcon
      have : c * 2 ≤ c * d := Nat.mul_le_mul_left c (by omega)
      omega
    have hd01 : d = 0 ∨ d = 1 := by omega
    rcases hd01 with h | h
    · subst h
      have hw0 : (t - (L + t) % c) % c = 0 := by omega
      have hL0 : L = 0 := by omega
      rw [hw0]
      simp [hL0]
    · subst h
      rw [Nat.mul_one] at hd
      by_cases hw0 : (t - (L + t) % c) % c = 0
      · omega
      · rw [if_neg (by omega)]
        omega
  · rw [if_neg hgt, sub64_of_le (by omega) (by omega)]
    have hle : t ≤ (L + t) % c := by omega
    have hlt : (L + t) % c - t < c := by omega
    rw [Nat.mod_eq_of_lt hlt]
    by_cases hs : L + t < c
    · rw [Nat.mod_eq_of_lt hs]; omega
    · have hsub : (L + t) % c = (L + t - c) % c := Nat.mod_eq_sub_mod (by omega)
      have h2 : L + t - c < c := by omega
      rw [Nat.mod_eq_of_lt h2] at hsub
      omega

theorem and_one_succ (j : Nat) : ((j + 1) &&& 1 = 1) ↔ ¬ (j &&& 1 = 1) := by
  rw [Nat.and_one_is_mod, Nat.and_one_is_mod]; omega

theorem grid_encRound {a b : Nat} (seed : Nat) (ha : 0 < a) (hb : 0 < b) (j : Nat)
    (s : Nat × Nat) (h : Grid a b j s) : Grid a b (j + 1) (encRound a b seed j s) := by
  unfold Grid at *
  unfold encRound
  by_cases hj : j &&& 1 = 1
  · have hj1 : ¬ ((j + 1) &&& 1 = 1) := by rw [and_one_succ]; exact not_not.mpr hj
    rw [if_pos hj] at h
    simp only [hj, hj1, if_true, if_false]
    exact ⟨h.2, Nat.mod_lt _ ha⟩
  · have hj1 : (j + 1) &&& 1 = 1 := (and_one_succ j).mpr hj
    rw [if_neg hj] at h
    simp only [hj, hj1, if_true, if_false]
    exact ⟨h.2, Nat.mod_lt _ hb⟩

theorem decRound_encRound {a b : Nat} (seed : Nat) (ha : a < 2 ^ 63) (hb : b < 2 ^ 63)
    (j : Nat) (s : Nat × Nat) (h : Grid a b j s) :
    decRound a b seed j (encRound a b seed j s) = s := by
  obtain ⟨L, R⟩ := s
  unfold Grid at h
  have hread : read j R seed < 2 ^ 63 := lt_trans (read_lt j R seed) (by norm_num)
  simp only [decRound, encRound]
  by_cases hj : j &&& 1 = 1
  · rw [if_pos hj] at h
    simp only [hj, if_true]
    rw [unmix_add ha h.1 hread]
  · rw [if_neg hj] at h
    simp only [hj, if_false]
    rw [unmix_add hb h.1 hread]

/-! ## All rounds and their inverse -/

theorem encRounds_succ (a b seed : Nat) :
    ∀ n j s, encRounds a b seed (n + 1) j s = encRound a b seed (j + n) (encRounds a b seed n j s) := by
  intro n
  induction n with
  | zero => intro j s; rfl
  | succ n ih =>
    intro j s
    rw [encRounds, ih (j + 1) (encRound a b seed j s)]
    have : j + 1 + n = j + (n + 1) := by omega
    rw [this]
    rfl

theorem grid_encRounds {a b : Nat} (seed : Nat) (ha : 0 < a) (hb : 0 < b) :
    ∀ n j s, Grid a b j s → Grid a b (j + n) (encRounds a b seed n j s) := by
  intro n
  induction n with
  | zero => intro j s h; exact h
  | succ n ih =>
    intro j s h
    rw [encRounds_succ]
    exact grid_encRound seed ha hb (j + n) _ (ih j s h)

theorem decRounds_encRounds {a b : Nat} (seed : Nat) (ha : 0 < a) (hb : 0 < b)
    (ha63 : a < 2 ^ 63) (hb63 : b < 2 ^ 63) (s : Nat × Nat) (h : Grid a b 1 s) :
    ∀ n, decRounds a b seed n (encRounds a b seed n 1 s) = s := by
  intro n
  induction n with
  | zero => rfl
  | succ n ih =>
    rw [decRounds, encRounds_succ]
    have hn : 1 + n = n + 1 := by omega
    have hg := grid_encRounds seed ha hb n 1 s h
    rw [hn] at hg ⊢
    rw [decRound_encRound seed ha63 hb63 (n + 1) _ hg]
    exact ih

theorem grid_split {a b m : Nat} (ha : 0 < a) (hm : m < a * b) :
    Grid a b 1 (m % a, m / a) := by
  unfold Grid
  rw [if_pos (by decide)]
  exact ⟨Nat.mod_lt _ ha, (Nat.div_lt_iff_lt_mul ha).mpr (by rw [Nat.mul_comm]; exact hm)⟩

theorem join_lt {a b x y : Nat} (hx : x < b) (hy : y < a) : a * x + y < a * b := by
  have : a * (x + 1) ≤ a * b := Nat.mul_le_mul_left a hx
  rw [Nat.mul_add, Nat.mul_one] at this
  omega

theorem join_mod {a x y : Nat} (hy : y < a) : (a * x + y) % a = y := by
  rw [Nat.mul_add_mod, Nat.mod_eq_of_lt hy]

theorem join_div {a x y : Nat} (hy : y < a) : (a * x + y) / a = x := by
  have ha : 0 < a := by omega
  rw [Nat.mul_add_div ha, Nat.div_eq_of_lt hy, Nat.add_zero]

theorem toNat_and_one {r : Int} (hr : 0 ≤ r) : (r.toNat &&& 1 = 1) ↔ r % 2 = 1 := by
  rw [Nat.and_one_is_mod]
  omega

/-- The final state of `encrypt`, with the bounds that the parity of `r` gives. -/
theorem grid_final {r : Int} {a b m : Nat} (seed : Nat) (hr : 0 ≤ r) (ha : 0 < a) (hb : 0 < b)
    (hm : m < a * b) :
    if r % 2 = 1 then
      (encRounds a b seed r.toNat 1 (m % a, m / a)).1 < b ∧
      (encRounds a b seed r.toNat 1 (m % a, m / a)).2 < a
    else
      (encRounds a b seed r.toNat 1 (m % a, m / a)).1 < a ∧
      (encRounds a b seed r.toNat 1 (m % a, m / a)).2 < b := by
  have hg := grid_encRounds seed ha hb r.toNat 1 _ (grid_split ha hm)
  unfold Grid at hg
  have hpar : ((1 + r.toNat) &&& 1 = 1) ↔ ¬ (r % 2 = 1) := by
    rw [Nat.and_one_is_mod]
    omega
  by_cases hodd : r % 2 = 1
  · rw [if_pos hodd]
    rw [if_neg (by rw [hpar]; exact not_not.mpr hodd)] at hg
    exact hg
  · rw [if_neg hodd]
    rw [if_pos (hpar.mpr hodd)] at hg
    exact hg

/-- The network stays inside the grid `[0, a * b)`. -/
theorem encryptVal_lt {r : Int} {a b m : Nat} (seed : Nat) (hr : 0 ≤ r) (ha : 0 < a)
    (hb : 0 < b) (hab : a * b < 2 ^ 64) (hm : m < a * b) :
    encryptVal r a b m seed < a * b := by
  have hg := grid_final seed hr ha hb hm
  unfold encryptVal
  by_cases hodd : r % 2 = 1
  · rw [if_pos hodd] at hg
    simp only [hodd, if_true]
    have hlt := join_lt hg.1 hg.2
    rw [mul64_of_lt (by omega), add64_of_lt (by omega)]
    exact hlt
  · rw [if_neg hodd] at hg
    simp only [hodd, if_false]
    have hlt := join_lt hg.2 hg.1
    rw [mul64_of_lt (by omega), add64_of_lt (by omega)]
    exact hlt

/-- The inverse network undoes the network on the grid. -/
theorem unencryptVal_encryptVal {r : Int} {a b m : Nat} (seed : Nat) (hr : 0 ≤ r)
    (ha : 0 < a) (hb : 0 < b) (ha63 : a < 2 ^ 63) (hb63 : b < 2 ^ 63)
    (hab : a * b < 2 ^ 64) (hm : m < a * b) :
    unencryptVal r a b (encryptVal r a b m seed) seed = m := by
  have hg := grid_final seed hr ha hb hm
  have hinv := decRounds_encRounds seed ha hb ha63 hb63 _ (grid_split ha hm) r.toNat
  have hback : add64 (mul64 a (m / a)) (m % a) = m := by
    have h1 : a * (m / a) + m % a = m := Nat.div_add_mod m a
    rw [mul64_of_lt (by omega), add64_of_lt (by omega)]
    exact h1
  by_cases hodd : r % 2 = 1
  · rw [if_pos hodd] at hg
    have hlt := join_lt hg.1 hg.2
    have hv : encryptVal r a b m seed =
        a * (encRounds a b seed r.toNat 1 (m % a, m / a)).1 +
          (encRounds a b seed r.toNat 1 (m % a, m / a)).2 := by
      unfold encryptVal
      simp only [hodd, if_true]
      rw [mul64_of_lt (by omega), add64_of_lt (by omega)]
    unfold unencryptVal
    simp only [hodd, if_true]
    rw [hv, join_mod hg.2, join_div hg.2, hinv]
    exact hback
  · rw [if_neg hodd] at hg
    have hlt := join_lt hg.2 hg.1
    have hv : encryptVal r a b m seed =
        a * (encRounds a b seed r.toNat 1 (m % a, m / a)).2 +
          (encRounds a b seed r.toNat 1 (m % a, m / a)).1 := by
      unfold encryptVal
      simp only [hodd, if_false]
      rw [mul64_of_lt (by omega), add64_of_lt (by omega)]
    unfold unencryptVal
    simp only [hodd, if_false]
    rw [hv, join_mod hg.1, join_div hg.1, hinv]
    exact hback

/-! ## Cycle walking, for any injective step function -/

theorem walk_ok (e : Nat → Nat) (N : Nat) :
    ∀ k fuel c, k ≤ fuel → (∀ j, j < k → N ≤ e^[j] c) → e^[k] c < N →
      walk e N fuel c = .ok (e^[k] c) := by
  intro k
  induction k with
  | zero =>
    intro fuel c _ _ hlt
    have hc : ¬ c ≥ N := by simpa using hlt
    cases fuel <;> simp [walk, hc]
  | succ k ih =>
    intro fuel c hk hge hlt
    obtain ⟨f, rfl⟩ : ∃ f, fuel = f + 1 := ⟨fuel - 1, by omega⟩
    have hc : c ≥ N := hge 0 (by omega)
    rw [walk, if_pos hc]
    rw [Function.iterate_succ_apply] at hlt ⊢
    apply ih f (e c) (by omega) _ hlt
    intro j hj
    rw [← Function.iterate_succ_apply]
    exact hge (j + 1) (by omega)

theorem walk_outOfFuel (e : Nat → Nat) (N : Nat) :
    ∀ fuel c, (∀ j, j ≤ fuel → N ≤ e^[j] c) → walk e N fuel c = .outOfFuel := by
  intro fuel
  induction fuel with
  | zero =>
    intro c h
    have hc : c ≥ N := h 0 (le_refl 0)
    simp [walk, hc]
  | succ f ih =>
    intro c h
    have hc : c ≥ N := h 0 (by omega)
    rw [walk, if_pos hc]
    apply ih
    intro j hj
    rw [← Function.iterate_succ_apply]
    exact h (j + 1) (by omega)

theorem iterate_lt {e : Nat → Nat} {M : Nat} (hmaps : ∀ x, x < M → e x < M) {m : Nat}
    (hm : m < M) : ∀ k, e^[k] m < M := by
  intro k
  induction k with
  | zero => exact hm
  | succ k ih =>
    rw [Function.iterate_succ_apply']
    exact hmaps _ ih

theorem iterate_inj {e : Nat → Nat} {M : Nat} (hmaps : ∀ x, x < M → e x < M)
    (hinj : ∀ x y, x < M → y < M → e x = e y → x = y) :
    ∀ k u v, u < M → v < M → e^[k] u = e^[k] v → u = v := by
  intro k
  induction k with
  | zero => intro u v _ _ h; exact h
  | succ k ih =>
    intro u v hu hv h
    rw [Function.iterate_succ_apply, Function.iterate_succ_apply] at h
    exact hinj u v hu hv (ih (e u) (e v) (hmaps u hu) (hmaps v hv) h)

/-- An orbit that starts below `N` comes back below `N` within `M - N + 1` steps. -/
theorem exists_return {e : Nat → Nat} {M N m : Nat} (hmaps : ∀ x, x < M → e x < M)
    (hinj : ∀ x y, x < M → y < M → e x = e y → x = y) (hN : N ≤ M) (hm : m < N) :
    ∃ k, 1 ≤ k ∧ k ≤ M - N + 1 ∧ e^[k] m < N := by
  by_contra hcon
  have hall : ∀ k, 1 ≤ k → k ≤ M - N + 1 → N ≤ e^[k] m := by
    intro k h1 h2
    by_contra hlt
    exact hcon ⟨k, h1, h2, by omega⟩
  have hmM : m < M := by omega
  have hcard : (Finset.Ico N M).card < (Finset.Icc 1 (M - N + 1)).card := by
    rw [Nat.card_Ico, Nat.card_Icc]
    omega
  have hto : ∀ k ∈ Finset.Icc 1 (M - N + 1), (fun k => e^[k] m) k ∈ Finset.Ico N M := by
    intro k hk
    rw [Finset.mem_Icc] at hk
    rw [Finset.mem_Ico]
    exact ⟨hall k hk.1 hk.2, iterate_lt hmaps hmM k⟩
  obtain ⟨x, hx, y, hy, hxy, hfxy⟩ := Finset.exists_ne_map_eq_of_card_lt_of_maps_to hcard hto
  rw [Finset.mem_Icc] at hx hy
  have key : ∀ u v, 1 ≤ u → u < v → v ≤ M - N + 1 → e^[u] m = e^[v] m → False := by
    intro u v hu huv hv h
    have hsplit : e^[v] m = e^[u] (e^[v - u] m) := by
      rw [← Function.iterate_add_apply]
      congr 1
      omega
    rw [hsplit] at h
    have hback := iterate_inj hmaps hinj u m (e^[v - u] m) hmM (iterate_lt hmaps hmM _) h
    have := hall (v - u) (by omega) (by omega)
    omega
  rcases Nat.lt_or_gt_of_ne hxy with hlt | hgt
  · exact key x y hx.1 hlt hy.2 hfxy
  · exact key y x hy.1 hgt hx.2 hfxy.symm

/-- The first return below `N`. -/
theorem exists_first_return {e : Nat → Nat} {M N m : Nat} (hmaps : ∀ x, x < M → e x < M)
    (hinj : ∀ x y, x < M → y < M → e x = e y → x = y) (hN : N ≤ M) (hm : m < N) :
    ∃ k, 1 ≤ k ∧ k ≤ M - N + 1 ∧ e^[k] m < N ∧ ∀ j, 1 ≤ j → j < k → N ≤ e^[j] m := by
  classical
  have hex : ∃ k, 1 ≤ k ∧ e^[k] m < N := by
    obtain ⟨k, h1, _, h3⟩ := exists_return hmaps hinj hN hm
    exact ⟨k, h1, h3⟩
  obtain ⟨k0, _, hk0, hlt0⟩ := exists_return hmaps hinj hN hm
  refine ⟨Nat.find hex, (Nat.find_spec hex).1, ?_, (Nat.find_spec hex).2, ?_⟩
  · exact le_trans (Nat.find_min' hex ⟨by assumption, hlt0⟩) hk0
  · intro j hj1 hjk
    by_contra hlt
    exact Nat.find_min hex hjk ⟨hj1, by omega⟩

theorem iterate_cancel {e d : Nat → Nat} {M m : Nat} (hmaps : ∀ x, x < M → e x < M)
    (hleft : ∀ x, x < M → d (e x) = x) (hm : m < M) :
    ∀ j k, j ≤ k → d^[j] (e^[k] m) = e^[k - j] m := by
  intro j
  induction j with
  | zero => intro k _; rfl
  | succ j ih =>
    intro k hjk
    rw [Function.iterate_succ_apply', ih k (by omega)]
    have hk : k - j = (k - (j + 1)) + 1 := by omega
    rw [hk, Function.iterate_succ_apply']
    exact hleft _ (iterate_lt hmaps hm _)

/-- Cycle walking with `e` from `m < N` stops at the first return `e^[k] m`, and cycle
walking with a left inverse `d` of `e` from there stops at `m`. -/
theorem walk_roundtrip {e d : Nat → Nat} {M N m : Nat} (hmaps : ∀ x, x < M → e x < M)
    (hinj : ∀ x y, x < M → y < M → e x = e y → x = y)
    (hleft : ∀ x, x < M → d (e x) = x) (hN : N ≤ M) (hm : m < N) :
    ∃ k, 1 ≤ k ∧ k ≤ M - N + 1 ∧ e^[k] m < N ∧ (∀ j, 1 ≤ j → j < k → N ≤ e^[j] m) ∧
      (∀ fuel, k - 1 ≤ fuel → walk e N fuel (e m) = .ok (e^[k] m)) ∧
      (∀ fuel, fuel < k - 1 → walk e N fuel (e m) = .outOfFuel) ∧
      (∀ fuel, k - 1 ≤ fuel → walk d N fuel (d (e^[k] m)) = .ok m) := by
  obtain ⟨k, hk1, hkM, hlt, hfirst⟩ := exists_first_return hmaps hinj hN hm
  have hmM : m < M := by omega
  refine ⟨k, hk1, hkM, hlt, hfirst, ?_, ?_, ?_⟩
  · intro fuel hfuel
    have h := walk_ok e N (k - 1) fuel (e m) hfuel
    rw [← Function.iterate_succ_apply, (by omega : (k - 1).succ = k)] at h
    apply h _ hlt
    intro j hj
    rw [← Function.iterate_succ_apply]
    exact hfirst (j + 1) (by omega) (by omega)
  · intro fuel hfuel
    apply walk_outOfFuel
    intro j hj
    rw [← Function.iterate_succ_apply]
    exact hfirst (j + 1) (by omega) (by omega)
  · intro fuel hfuel
    have hcancel := iterate_cancel hmaps hleft hmM
    have h := walk_ok d N (k - 1) fuel (d (e^[k] m)) hfuel
    rw [← Function.iterate_succ_apply, (by omega : (k - 1).succ = k), hcancel k k (le_refl k),
      Nat.sub_self] at h
    apply h _ hm
    intro j hj
    rw [← Function.iterate_succ_apply, hcancel (j + 1) k (by omega)]
    exact hfirst (k - (j + 1)) (by omega) (by omega)

/-! ## The engine as a pair of walks -/

theorem shuffleLoop_eq (br : BlackRock) (ha : 0 < br.a) (hb : 0 < br.b) :
    ∀ fuel c, shuffleLoop br fuel c =
      walk (fun x => encryptVal br.rounds br.a br.b x br.seed) br.inputSize fuel c := by
  intro fuel
  induction fuel with
  | zero => intro c; rfl
  | succ f ih =>
    intro c
    simp only [shuffleLoop, walk, encrypt_eq _ _ _ ha hb, Outcome.bind_ok, ih]

theorem Shuffle_eq (fuel : Nat) (br : BlackRock) (m : Nat) (ha : 0 < br.a) (hb : 0 < br.b) :
    Shuffle fuel br m =
      walk (fun x => encryptVal br.rounds br.a br.b x br.seed) br.inputSize fuel
        (encryptVal br.rounds br.a br.b m br.seed) := by
  simp only [Shuffle, encrypt_eq _ _ _ ha hb, Outcome.bind_ok, shuffleLoop_eq br ha hb]

theorem unshuffleLoop_eq (br : BlackRock) (ha : 0 < br.a) (hb : 0 < br.b) :
    ∀ fuel c, unshuffleLoop br fuel c =
      walk (fun x => unencryptVal br.rounds br.a br.b x br.seed) br.inputSize fuel c := by
  intro fuel
  induction fuel with
  | zero => intro c; rfl
  | succ f ih =>
    intro c
    simp only [unshuffleLoop, walk, unencrypt_eq _ _ _ ha hb, Outcome.bind_ok, ih]

theorem Unshuffle_eq (fuel : Nat) (br : BlackRock) (m : Nat) (ha : 0 < br.a)
    (hb : 0 < br.b) :
    Unshuffle fuel br m =
      walk (fun x => unencryptVal br.rounds br.a br.b x br.seed) br.inputSize fuel
        (unencryptVal br.rounds br.a br.b m br.seed) := by
  simp only [Unshuffle, unencrypt_eq _ _ _ ha hb, Outcome.bind_ok, unshuffleLoop_eq br ha hb]

theorem encryptIter_eq (br : BlackRock) (ha : 0 < br.a) (hb : 0 < br.b) (m : Nat) :
    ∀ k, encryptIter br k m =
      .ok ((fun x => encryptVal br.rounds br.a br.b x br.seed)^[k] m) := by
  intro k
  induction k with
  | zero => rfl
  | succ k ih =>
    rw [encryptIter, ih, Outcome.bind_ok, encrypt_eq _ _ _ ha hb, Function.iterate_succ_apply']

theorem encryptVal_inj {r : Int} {a b : Nat} (seed : Nat) (hr : 0 ≤ r) (ha : 0 < a)
    (hb : 0 < b) (ha63 : a < 2 ^ 63) (hb63 : b < 2 ^ 63) (hab : a * b < 2 ^ 64) :
    ∀ x y, x < a * b → y < a * b →
      encryptVal r a b x seed = encryptVal r a b y seed → x = y := by
  intro x y hx hy h
  rw [← unencryptVal_encryptVal seed hr ha hb ha63 hb63 hab hx,
    ← unencryptVal_encryptVal seed hr ha hb ha63 hb63 hab hy, h]

/-- An injective map of `[0, M)` into itself reaches every element. -/
theorem surj_of_inj {e : Nat → Nat} {M : Nat} (hmaps : ∀ x, x < M → e x < M)
    (hinj : ∀ x y, x < M → y < M → e x = e y → x = y) :
    ∀ y, y < M → ∃ x, x < M ∧ e x = y := by
  intro y hy
  have hfin : Function.Injective (fun x : Fin M => (⟨e x.1, hmaps x.1 x.2⟩ : Fin M)) := by
    intro u v huv
    apply Fin.ext
    exact hinj u.1 v.1 u.2 v.2 (congrArg Fin.val huv)
  obtain ⟨x, hx⟩ := (Finite.injective_iff_surjective.mp hfin) ⟨y, hy⟩
  exact ⟨x.1, x.2, congrArg Fin.val hx⟩

/-- The inverse network also undoes the network from the other side. -/
theorem encryptVal_unencryptVal {r : Int} {a b m : Nat} (seed : Nat) (hr : 0 ≤ r)
    (ha : 0 < a) (hb : 0 < b) (ha63 : a < 2 ^ 63) (hb63 : b < 2 ^ 63)
    (hab : a * b < 2 ^ 64) (hm : m < a * b) :
    unencryptVal r a b m seed < a * b ∧
      encryptVal r a b (unencryptVal r a b m seed) seed = m := by
  obtain ⟨x, hx, hxm⟩ := surj_of_inj (fun x hx => encryptVal_lt seed hr ha hb hab hx)
    (encryptVal_inj seed hr ha hb ha63 hb63 hab) m hm
  rw [← hxm, unencryptVal_encryptVal seed hr ha hb ha63 hb63 hab hx]
  exact ⟨hx, rfl⟩

/-- Cycle walking of an engine, forwards: `Shuffle` stops at the first return of the
orbit of `m` under the network, and `Unshuffle` walks back from there to `m`. -/
theorem shuffle_first_return (br : BlackRock) (m : Nat) (hr : 0 ≤ br.rounds)
    (ha : 0 < br.a) (ha63 : br.a < 2 ^ 63) (hb : 0 < br.b) (hb63 : br.b < 2 ^ 63)
    (hN : br.inputSize ≤ br.a * br.b) (hab : br.a * br.b < 2 ^ 64) (hm : m < br.inputSize) :
    ∃ k, 1 ≤ k ∧ k ≤ br.a * br.b - br.inputSize + 1 ∧
      (fun x => encryptVal br.rounds br.a br.b x br.seed)^[k] m < br.inputSize ∧
      (∀ j, 1 ≤ j → j < k →
        br.inputSize ≤ (fun x => encryptVal br.rounds br.a br.b x br.seed)^[j] m) ∧
      (∀ fuel, k - 1 ≤ fuel → Shuffle fuel br m =
        .ok ((fun x => encryptVal br.rounds br.a br.b x br.seed)^[k] m)) ∧
      (∀ fuel, fuel < k - 1 → Shuffle fuel br m = .outOfFuel) ∧
      (∀ fuel, k - 1 ≤ fuel → Unshuffle fuel br
        ((fun x => encryptVal br.rounds br.a br.b x br.seed)^[k] m) = .ok m) := by
  obtain ⟨k, h1, h2, h3, h4, h5, h6, h7⟩ :=
    walk_roundtrip (e := fun x => encryptVal br.rounds br.a br.b x br.seed)
      (d := fun x => unencryptVal br.rounds br.a br.b x br.seed)
      (fun x hx => encryptVal_lt br.seed hr ha hb hab hx)
      (encryptVal_inj br.seed hr ha hb ha63 hb63 hab)
      (fun x hx => unencryptVal_encryptVal br.seed hr ha hb ha63 hb63 hab hx) hN hm
  refine ⟨k, h1, h2, h3, h4, ?_, ?_, ?_⟩
  · intro fuel hf
    rw [Shuffle_eq fuel br m ha hb]
    exact h5 fuel hf
  · intro fuel hf
    rw [Shuffle_eq fuel br m ha hb]
    exact h6 fuel hf
  · intro fuel hf
    rw [Unshuffle_eq fuel br _ ha hb]
    exact h7 fuel hf

/-- Cycle walking of an engine, backwards: `Unshuffle` stops at the first return of the
orbit of `m` under the inverse network, and `Shuffle` walks forward from there to `m`. -/
theorem unshuffle_first_return (br : BlackRock) (m : Nat) (hr : 0 ≤ br.rounds)
    (ha : 0 < br.a) (ha63 : br.a < 2 ^ 63) (hb : 0 < br.b) (hb63 : br.b < 2 ^ 63)
    (hN : br.inputSize ≤ br.a * br.b) (hab : br.a * br.b < 2 ^ 64) (hm : m < br.inputSize) :
    ∃ k, 1 ≤ k ∧ k ≤ br.a * br.b - br.inputSize + 1 ∧
      (fun x => unencryptVal br.rounds br.a br.b x br.seed)^[k] m < br.inputSize ∧
      (∀ fuel, k - 1 ≤ fuel → Unshuffle fuel br m =
        .ok ((fun x => unencryptVal br.rounds br.a br.b x br.seed)^[k] m)) ∧
      (∀ fuel, k - 1 ≤ fuel → Shuffle fuel br
        ((fun x => unencryptVal br.rounds br.a br.b x br.seed)^[k] m) = .ok m) := by
  have hd := fun x (hx : x < br.a * br.b) =>
    encryptVal_unencryptVal br.seed hr ha hb ha63 hb63 hab hx
  obtain ⟨k, h1, h2, h3, _, h5, _, h7⟩ :=
    walk_roundtrip (e := fun x => unencryptVal br.rounds br.a br.b x br.seed)
      (d := fun x => encryptVal br.rounds br.a br.b x br.seed)
      (fun x hx => (hd x hx).1)
      (fun x y hx hy hxy => by
        have h := congrArg (fun z => encryptVal br.rounds br.a br.b z br.seed) hxy
        simp only [(hd x hx).2, (hd y hy).2] at h
        exact h)
      (fun x hx => (hd x hx).2) hN hm
  refine ⟨k, h1, h2, h3, ?_, ?_⟩
  · intro fuel hf
    rw [Unshuffle_eq fuel br m ha hb]
    exact h5 fuel hf
  · intro fuel hf
    rw [Shuffle_eq fuel br _ ha hb]
    exact h7 fuel hf

/-- `Shuffle` is a bijection of `[0, inputSize)`: it returns a value of the range on
every index of the range, and every value of the range for exactly one index. -/
theorem shuffle_bijection (br : BlackRock) (fuel : Nat) (hr : 0 ≤ br.rounds)
    (ha : 0 < br.a) (ha63 : br.a < 2 ^ 63) (hb : 0 < br.b) (hb63 : br.b < 2 ^ 63)
    (hN : br.inputSize ≤ br.a * br.b) (hab : br.a * br.b < 2 ^ 64)
    (hfuel : br.a * br.b - br.inputSize ≤ fuel) :
    (∀ i, i < br.inputSize → ∃ v, v < br.inputSize ∧ Shuffle fuel br i = .ok v) ∧
    (∀ v, v < br.inputSize → ∃! i, i < br.inputSize ∧ Shuffle fuel br i = .ok v) := by
  constructor
  · intro i hi
    obtain ⟨k, _, _, h3, _, h5, _, _⟩ :=
      shuffle_first_return br i hr ha ha63 hb hb63 hN hab hi
    exact ⟨_, h3, h5 fuel (by omega)⟩
  · intro v hv
    obtain ⟨k, _, _, h3, _, h5⟩ :=
      unshuffle_first_return br v hr ha ha63 hb hb63 hN hab hv
    refine ⟨_, ⟨h3, h5 fuel (by omega)⟩, ?_⟩
    intro i ⟨hi, hiv⟩
    obtain ⟨k1, _, _, _, _, s5, _, s7⟩ :=
      shuffle_first_return br i hr ha ha63 hb hb63 hN hab hi
    obtain ⟨k2, _, _, t3, _, t5, _, t7⟩ :=
      shuffle_first_return br _ hr ha ha63 hb hb63 hN hab h3
    have e1 := s5 fuel (by omega)
    have e2 := t5 fuel (by omega)
    rw [hiv] at e1
    rw [h5 fuel (by omega)] at e2
    have u1 := s7 fuel (by omega)
    have u2 := t7 fuel (by omega)
    rw [← Outcome.ok.inj e1] at u1
    rw [← Outcome.ok.inj e2, u1] at u2
    exact Outcome.ok.inj u2

/-! ## Rounding to 53 bits is monotone across numbers with 53 bits -/

theorem dropBits_cases (n : Nat) :
    Nat.log2 n - 52 = 0 ∨ 2 ^ (Nat.log2 n - 52 + 52) ≤ n := by
  by_cases h : Nat.log2 n ≤ 52
  · left; omega
  · right
    have hn : n ≠ 0 := by
      rintro rfl
      simp [Nat.log2] at h
    have := Nat.log2_self_le hn
    rwa [Nat.sub_add_cancel (by omega)]

theorem lt_dropBits (n : Nat) : n < 2 ^ (Nat.log2 n - 52 + 53) := by
  have h1 : n < 2 ^ (Nat.log2 n + 1) := Nat.lt_log2_self
  exact lt_of_lt_of_le h1 (Nat.pow_le_pow_right (by decide) (by omega))

theorem rep_dvd {c k : Nat} (hc : Rep c) (h : 2 ^ (k + 52) ≤ c) : 2 ^ k ∣ c := by
  obtain ⟨m, e, rfl, hm⟩ := hc
  have hlt : 2 ^ (k + 52) < 2 ^ (53 + e) := by
    calc 2 ^ (k + 52) ≤ m * 2 ^ e := h
      _ < 2 ^ 53 * 2 ^ e := Nat.mul_lt_mul_of_pos_right hm (Nat.two_pow_pos _)
      _ = 2 ^ (53 + e) := (Nat.pow_add 2 53 e).symm
  have hke : k ≤ e := by
    have := (Nat.pow_lt_pow_iff_right (by decide : 1 < 2)).mp hlt
    omega
  exact Dvd.dvd.mul_left (Nat.pow_dvd_pow 2 hke) m

/-- Truncation to 53 significant bits does not go below a number that has 53 bits. -/
theorem le_trunc {c n : Nat} (hc : Rep c) (h : c ≤ n) :
    c ≤ n / 2 ^ (Nat.log2 n - 52) * 2 ^ (Nat.log2 n - 52) := by
  rcases dropBits_cases n with h0 | hbig
  · rw [h0]; simpa using h
  · by_cases hcb : 2 ^ (Nat.log2 n - 52 + 52) ≤ c
    · obtain ⟨c1, rfl⟩ := rep_dvd hc hcb
      rw [Nat.mul_comm]
      apply Nat.mul_le_mul_right
      rw [Nat.le_div_iff_mul_le (Nat.two_pow_pos _)]
      rw [Nat.mul_comm]; exact h
    · have h52 : 2 ^ 52 ≤ n / 2 ^ (Nat.log2 n - 52) := by
        rw [Nat.le_div_iff_mul_le (Nat.two_pow_pos _), ← Nat.pow_add, Nat.add_comm]
        exact hbig
      have : 2 ^ (Nat.log2 n - 52 + 52) ≤ n / 2 ^ (Nat.log2 n - 52) * 2 ^ (Nat.log2 n - 52) := by
        rw [Nat.add_comm, Nat.pow_add]
        exact Nat.mul_le_mul_right _ h52
      omega

/-- The next number with 53 bits above a truncation is below any number with 53 bits
that is strictly above the truncation. -/
theorem succ_trunc_le {c n : Nat} (hc : Rep c)
    (h : n / 2 ^ (Nat.log2 n - 52) * 2 ^ (Nat.log2 n - 52) < c) (hn : n ≤ c) :
    (n / 2 ^ (Nat.log2 n - 52) + 1) * 2 ^ (Nat.log2 n - 52) ≤ c := by
  have hdvd : 2 ^ (Nat.log2 n - 52) ∣ c := by
    rcases dropBits_cases n with h0 | hbig
    · rw [h0]; simp
    · exact rep_dvd hc (le_trans hbig hn)
  obtain ⟨c1, rfl⟩ := hdvd
  rw [Nat.mul_comm _ c1] at h ⊢
  have := Nat.lt_of_mul_lt_mul_right h
  exact Nat.mul_le_mul_right _ this

theorem le_round53 {c n : Nat} (hc : Rep c) (h : c ≤ n) : c ≤ round53 n := by
  have h1 := le_trunc hc h
  have h2 : n / 2 ^ (Nat.log2 n - 52) * 2 ^ (Nat.log2 n - 52) ≤
      (n / 2 ^ (Nat.log2 n - 52) + 1) * 2 ^ (Nat.log2 n - 52) :=
    Nat.mul_le_mul_right _ (Nat.le_succ _)
  unfold round53
  simp only []
  split_ifs <;> omega

theorem round53_le {c n : Nat} (hc : Rep c) (h : n ≤ c) : round53 n ≤ c := by
  have hdm := Nat.div_add_mod n (2 ^ (Nat.log2 n - 52))
  rw [Nat.mul_comm] at hdm
  have hup : 0 < n % 2 ^ (Nat.log2 n - 52) →
      (n / 2 ^ (Nat.log2 n - 52) + 1) * 2 ^ (Nat.log2 n - 52) ≤ c := by
    intro hr
    exact succ_trunc_le hc (by omega) h
  have hpos : 0 < 2 ^ (Nat.log2 n - 52) := Nat.two_pow_pos _
  unfold round53
  simp only []
  split_ifs <;> omega

theorem le_sqrtFloat64 {c x : Nat} (hc : Rep c) (h : c * c ≤ x * 2 ^ 104) :
    c ≤ sqrtFloat64 x := by
  have hS : c ≤ Nat.sqrt (x * 2 ^ 104) := Nat.le_sqrt.mpr h
  have h1 := le_trunc hc hS
  have h2 : Nat.sqrt (x * 2 ^ 104) / 2 ^ (Nat.log2 (Nat.sqrt (x * 2 ^ 104)) - 52)
        * 2 ^ (Nat.log2 (Nat.sqrt (x * 2 ^ 104)) - 52) ≤
      (Nat.sqrt (x * 2 ^ 104) / 2 ^ (Nat.log2 (Nat.sqrt (x * 2 ^ 104)) - 52) + 1)
        * 2 ^ (Nat.log2 (Nat.sqrt (x * 2 ^ 104)) - 52) :=
    Nat.mul_le_mul_right _ (Nat.le_succ _)
  unfold sqrtFloat64
  simp only []
  split_ifs <;> omega

theorem sqrtFloat64_le {c x : Nat} (hc : Rep c) (h : x * 2 ^ 104 ≤ c * c) :
    sqrtFloat64 x ≤ c := by
  have hS : Nat.sqrt (x * 2 ^ 104) ≤ c := by
    by_contra hcon
    have hlt : c < Nat.sqrt (x * 2 ^ 104) := by omega
    have := Nat.mul_self_lt_mul_self hlt
    have := Nat.sqrt_le (x * 2 ^ 104)
    omega
  have hdm := Nat.div_add_mod (Nat.sqrt (x * 2 ^ 104))
    (2 ^ (Nat.log2 (Nat.sqrt (x * 2 ^ 104)) - 52))
  rw [Nat.mul_comm] at hdm
  have hup : ((2 * (Nat.sqrt (x * 2 ^ 104) / 2 ^ (Nat.log2 (Nat.sqrt (x * 2 ^ 104)) - 52)) + 1)
        * 2 ^ (Nat.log2 (Nat.sqrt (x * 2 ^ 104)) - 52)) *
      ((2 * (Nat.sqrt (x * 2 ^ 104) / 2 ^ (Nat.log2 (Nat.sqrt (x * 2 ^ 104)) - 52)) + 1)
        * 2 ^ (Nat.log2 (Nat.sqrt (x * 2 ^ 104)) - 52)) ≤ 4 * (x * 2 ^ 104) →
      (Nat.sqrt (x * 2 ^ 104) / 2 ^ (Nat.log2 (Nat.sqrt (x * 2 ^ 104)) - 52) + 1)
        * 2 ^ (Nat.log2 (Nat.sqrt (x * 2 ^ 104)) - 52) ≤ c := by
    intro hmid
    apply succ_trunc_le hc _ hS
    by_contra hcon
    have hle : c ≤ Nat.sqrt (x * 2 ^ 104) / 2 ^ (Nat.log2 (Nat.sqrt (x * 2 ^ 104)) - 52)
        * 2 ^ (Nat.log2 (Nat.sqrt (x * 2 ^ 104)) - 52) := by omega
    have h2c : 2 * c < (2 * (Nat.sqrt (x * 2 ^ 104) / 2 ^ (Nat.log2 (Nat.sqrt (x * 2 ^ 104)) - 52)) + 1)
        * 2 ^ (Nat.log2 (Nat.sqrt (x * 2 ^ 104)) - 52) := by
      have hpos : 0 < 2 ^ (Nat.log2 (Nat.sqrt (x * 2 ^ 104)) - 52) := Nat.two_pow_pos _
      rw [Nat.add_mul, Nat.mul_assoc]
      omega
    have := Nat.mul_self_lt_mul_self h2c
    have h4 : 2 * c * (2 * c) = 4 * (c * c) := by ring
    omega
  unfold sqrtFloat64
  simp only []
  split_ifs <;> omega

/-! ## The factors chosen by the constructor -/

theorem rep_scaled {c : Nat} (hc : c < 2 ^ 53) : Rep (c * 2 ^ 52) := ⟨c, 52, rfl, hc⟩

theorem rep_small {c : Nat} (hc : c < 2 ^ 53) : Rep c := ⟨c, 0, by simp, hc⟩

theorem initFactors_default {N : Nat} (h9 : 9 ≤ N) :
    initFactors N =
      (floatToUint64 (subFloat64 (sqrtFloat64 (toFloat64 (mul64 N 1))) 2),
       floatToUint64 (addFloat64 (sqrtFloat64 (toFloat64 (mul64 N 1))) 3)) := by
  obtain ⟨n, rfl⟩ : ∃ n, N = n + 9 := ⟨N - 9, by omega⟩
  rfl

/-- Bounds on the factors of the default branch from bounds on `foo`: `P` and `Q`
bracket `inputSize` and survive the conversion to `float64`, `L` and `H` bracket the
square root and survive its rounding and that of `foo - 2` and `foo + 3`. -/
theorem initFactors_between {N P Q L H : Nat} (h9 : 9 ≤ N) (hN : N < 2 ^ 64)
    (hP : Rep P) (hPN : P ≤ N) (hQ : Rep Q) (hNQ : N ≤ Q)
    (hlo : Rep L) (hlo2 : L * L ≤ P * 2 ^ 104) (hhi : Rep H) (hhi2 : Q * 2 ^ 104 ≤ H * H)
    (hlos : Rep (L - 2 * 2 ^ 52)) (hloa : Rep (L + 3 * 2 ^ 52))
    (hhis : Rep (H - 2 * 2 ^ 52)) (hhia : Rep (H + 3 * 2 ^ 52))
    (hhi64 : H + 3 * 2 ^ 52 < 2 ^ 116) :
    (L - 2 * 2 ^ 52) / 2 ^ 52 ≤ (initFactors N).1 ∧
    (initFactors N).1 ≤ (H - 2 * 2 ^ 52) / 2 ^ 52 ∧
    (L + 3 * 2 ^ 52) / 2 ^ 52 ≤ (initFactors N).2 ∧
    (initFactors N).2 ≤ (H + 3 * 2 ^ 52) / 2 ^ 52 := by
  rw [initFactors_default h9]
  have hx : toFloat64 (mul64 N 1) = round53 N := by
    unfold toFloat64 mul64
    rw [Nat.mul_one, Nat.mod_eq_of_lt hN]
  rw [hx]
  have hxP : P ≤ round53 N := le_round53 hP hPN
  have hxQ : round53 N ≤ Q := round53_le hQ hNQ
  have hf1 : L ≤ sqrtFloat64 (round53 N) :=
    le_sqrtFloat64 hlo (le_trans hlo2 (Nat.mul_le_mul_right _ hxP))
  have hf2 : sqrtFloat64 (round53 N) ≤ H :=
    sqrtFloat64_le hhi (le_trans (Nat.mul_le_mul_right _ hxQ) hhi2)
  have hs1 : L - 2 * 2 ^ 52 ≤ subFloat64 (sqrtFloat64 (round53 N)) 2 :=
    le_round53 hlos (Nat.sub_le_sub_right hf1 _)
  have hs2 : subFloat64 (sqrtFloat64 (round53 N)) 2 ≤ H - 2 * 2 ^ 52 :=
    round53_le hhis (Nat.sub_le_sub_right hf2 _)
  have ha1 : L + 3 * 2 ^ 52 ≤ addFloat64 (sqrtFloat64 (round53 N)) 3 :=
    le_round53 hloa (Nat.add_le_add_right hf1 _)
  have ha2 : addFloat64 (sqrtFloat64 (round53 N)) 3 ≤ H + 3 * 2 ^ 52 :=
    round53_le hhia (Nat.add_le_add_right hf2 _)
  have hd1 := Nat.div_le_div_right (c := 2 ^ 52) hs1
  have hd2 := Nat.div_le_div_right (c := 2 ^ 52) hs2
  have hd3 := Nat.div_le_div_right (c := 2 ^ 52) ha1
  have hd4 := Nat.div_le_div_right (c := 2 ^ 52) ha2
  have hsmall : (H + 3 * 2 ^ 52) / 2 ^ 52 < 2 ^ 64 := by
    rw [Nat.div_lt_iff_lt_mul (Nat.two_pow_pos _)]
    exact hhi64
  have hsmall2 : (H - 2 * 2 ^ 52) / 2 ^ 52 ≤ (H + 3 * 2 ^ 52) / 2 ^ 52 :=
    Nat.div_le_div_right (by omega)
  simp only [floatToUint64]
  rw [Nat.mod_eq_of_lt (by omega), Nat.mod_eq_of_lt (by omega)]
  exact ⟨hd1, hd2, hd3, hd4⟩

/-- Bounds on the factors of the default branch between whole numbers. -/
theorem initFactors_bounds {N P Q L H : Nat} (h9 : 9 ≤ N) (hN : N < 2 ^ 64)
    (hP : Rep P) (hPN : P ≤ N) (hQ : Rep Q) (hNQ : N ≤ Q)
    (hlo2 : L * L ≤ P) (hlo3 : 2 ≤ L) (hlo32 : L ≤ 2 ^ 32)
    (hhi2 : Q ≤ H * H) (hhi3 : 2 ≤ H) (hhi32 : H ≤ 2 ^ 32) :
    L - 2 ≤ (initFactors N).1 ∧ (initFactors N).1 ≤ H - 2 ∧
    L + 3 ≤ (initFactors N).2 ∧ (initFactors N).2 ≤ H + 3 := by
  have e1 : L * 2 ^ 52 - 2 * 2 ^ 52 = (L - 2) * 2 ^ 52 := (Nat.sub_mul L 2 _).symm
  have e2 : L * 2 ^ 52 + 3 * 2 ^ 52 = (L + 3) * 2 ^ 52 := (Nat.add_mul L 3 _).symm
  have e3 : H * 2 ^ 52 - 2 * 2 ^ 52 = (H - 2) * 2 ^ 52 := (Nat.sub_mul H 2 _).symm
  have e4 : H * 2 ^ 52 + 3 * 2 ^ 52 = (H + 3) * 2 ^ 52 := (Nat.add_mul H 3 _).symm
  have sq : ∀ c : Nat, c * 2 ^ 52 * (c * 2 ^ 52) = c * c * 2 ^ 104 := by
    intro c; ring
  have h := initFactors_between (L := L * 2 ^ 52) (H := H * 2 ^ 52) h9 hN hP hPN hQ hNQ
    (rep_scaled (by omega)) (by rw [sq]; exact Nat.mul_le_mul_right _ hlo2)
    (rep_scaled (by omega)) (by rw [sq]; exact Nat.mul_le_mul_right _ hhi2)
    (by rw [e1]; exact rep_scaled (by omega)) (by rw [e2]; exact rep_scaled (by omega))
    (by rw [e3]; exact rep_scaled (by omega)) (by rw [e4]; exact rep_scaled (by omega))
    (by omega)
  rw [e1, e2, e3, e4, Nat.mul_div_cancel _ (Nat.two_pow_pos 52),
    Nat.mul_div_cancel _ (Nat.two_pow_pos 52), Nat.mul_div_cancel _ (Nat.two_pow_pos 52),
    Nat.mul_div_cancel _ (Nat.two_pow_pos 52)] at h
  exact h

/-- Below `2 ^ 51` the rounding of the square root never reaches the next whole
number: the factors of the default branch are `s - 2` and `s + 3` for the integer
square root `s` of `inputSize`. -/
theorem initFactors_exact {N t : Nat} (h9 : 9 ≤ N) (hN : N < 2 ^ 51) (h1 : t * t ≤ N)
    (h2 : N < (t + 1) * (t + 1)) : initFactors N = (t - 2, t + 3) := by
  have ht3 : 3 ≤ t := by
    by_contra hcon
    have : t + 1 ≤ 3 := by omega
    have := Nat.mul_le_mul this this
    omega
  have ht26 : t + 4 ≤ 2 ^ 26 := by
    by_contra hcon
    have : 2 ^ 26 - 3 ≤ t := by omega
    have := Nat.mul_le_mul this this
    omega
  have hrepN : Rep N := rep_small (by omega)
  have hhi : (t + 1) * 2 ^ 52 - 2 ^ 25 = ((t + 1) * 2 ^ 27 - 1) * 2 ^ 25 := by omega
  have hhis : (t + 1) * 2 ^ 52 - 2 ^ 25 - 2 * 2 ^ 52 = ((t - 1) * 2 ^ 27 - 1) * 2 ^ 25 := by
    omega
  have hhia : (t + 1) * 2 ^ 52 - 2 ^ 25 + 3 * 2 ^ 52 = ((t + 4) * 2 ^ 27 - 1) * 2 ^ 25 := by
    omega
  have hlos : t * 2 ^ 52 - 2 * 2 ^ 52 = (t - 2) * 2 ^ 52 := by omega
  have hloa : t * 2 ^ 52 + 3 * 2 ^ 52 = (t + 3) * 2 ^ 52 := by omega
  have hsq : N * 2 ^ 104 ≤ ((t + 1) * 2 ^ 52 - 2 ^ 25) * ((t + 1) * 2 ^ 52 - 2 ^ 25) := by
    have hge : 2 ^ 25 ≤ (t + 1) * 2 ^ 52 := by omega
    zify [hge]
    have h2z : (N : Int) + 1 ≤ ((t : Int) + 1) * ((t : Int) + 1) := by exact_mod_cast h2
    have htz : (t : Int) + 4 ≤ 2 ^ 26 := by exact_mod_cast ht26
    nlinarith
  have h := initFactors_between (L := t * 2 ^ 52) (H := (t + 1) * 2 ^ 52 - 2 ^ 25)
    h9 (by omega) hrepN (le_refl N) hrepN (le_refl N)
    (rep_scaled (by omega))
    (by
      have : t * 2 ^ 52 * (t * 2 ^ 52) = t * t * 2 ^ 104 := by ring
      rw [this]
      exact Nat.mul_le_mul_right _ h1)
    ⟨(t + 1) * 2 ^ 27 - 1, 25, hhi, by omega⟩ hsq
    (by rw [hlos]; exact rep_scaled (by omega))
    (by rw [hloa]; exact rep_scaled (by omega))
    ⟨(t - 1) * 2 ^ 27 - 1, 25, hhis, by omega⟩
    ⟨(t + 4) * 2 ^ 27 - 1, 25, hhia, by omega⟩
    (by omega)
  obtain ⟨b1, b2, b3, b4⟩ := h
  have c1 : (t * 2 ^ 52 - 2 * 2 ^ 52) / 2 ^ 52 = t - 2 := by omega
  have c2 : ((t + 1) * 2 ^ 52 - 2 ^ 25 - 2 * 2 ^ 52) / 2 ^ 52 = t - 2 := by omega
  have c3 : (t * 2 ^ 52 + 3 * 2 ^ 52) / 2 ^ 52 = t + 3 := by omega
  have c4 : ((t + 1) * 2 ^ 52 - 2 ^ 25 + 3 * 2 ^ 52) / 2 ^ 52 = t + 3 := by omega
  rw [c1] at b1
  rw [c2] at b2
  rw [c3] at b3
  rw [c4] at b4
  exact Prod.ext (by simp only; omega) (by simp only; omega)

/-! ## The loop of the constructor -/

theorem initLoop_ok {N a : Nat} (ha : 0 < a) (hNa : N + a < 2 ^ 64) :
    ∀ fuel b, N + 1 - a * b ≤ fuel → a * b < 2 ^ 64 →
      ∃ c, initLoop N a fuel b = .ok c ∧ b ≤ c ∧ N < a * c ∧ a * c < 2 ^ 64 ∧
        ∀ x, b ≤ x → x < c → a * x ≤ N := by
  intro fuel
  induction fuel with
  | zero =>
    intro b hf hlt
    refine ⟨b, ?_, le_refl b, by omega, hlt, fun x h1 h2 => by omega⟩
    rw [initLoop, mul64_of_lt hlt, if_neg (by omega)]
  | succ f ih =>
    intro b hf hlt
    by_cases hle : a * b ≤ N
    · have hb : b ≤ a * b := Nat.le_mul_of_pos_left b ha
      have hmul : a * (b + 1) = a * b + a := Nat.mul_succ a b
      obtain ⟨c, hc1, hc2, hc3, hc4, hc5⟩ := ih (b + 1) (by omega) (by omega)
      refine ⟨c, ?_, by omega, hc3, hc4, ?_⟩
      · rw [initLoop, mul64_of_lt hlt, if_pos hle, add64_of_lt (by omega)]
        exact hc1
      · intro x hx1 hx2
        by_cases hxb : x = b
        · rw [hxb]; exact hle
        · exact hc5 x (by omega) hx2
    · refine ⟨b, ?_, le_refl b, by omega, hlt, fun x h1 h2 => by omega⟩
      rw [initLoop, mul64_of_lt hlt, if_neg hle]

theorem initLoop_exit {N a : Nat} :
    ∀ fuel b c, initLoop N a fuel b = .ok c → N < mul64 a c := by
  intro fuel
  induction fuel with
  | zero =>
    intro b c h
    rw [initLoop] at h
    split at h
    · cases h
    · cases h; omega
  | succ f ih =>
    intro b c h
    rw [initLoop] at h
    split at h
    · exact ih _ c h
    · cases h; omega

theorem initLoop_zero (N : Nat) : ∀ fuel b, initLoop N 0 fuel b = .outOfFuel := by
  intro fuel
  induction fuel with
  | zero => intro b; simp [initLoop, mul64]
  | succ f ih => intro b; simp [initLoop, mul64, ih]

theorem initLoop_max (a : Nat) : ∀ fuel b, initLoop (2 ^ 64 - 1) a fuel b = .outOfFuel := by
  have hle : ∀ b, mul64 a b ≤ 2 ^ 64 - 1 := by
    intro b
    unfold mul64
    omega
  intro fuel
  induction fuel with
  | zero => intro b; rw [initLoop, if_pos (hle b)]
  | succ f ih => intro b; rw [initLoop, if_pos (hle b), ih]

/-- The constructor on the default branch, for sizes below `2 ^ 63`. -/
theorem InitBlackrock_ok (N seed : Nat) (rounds : Int) (fuel : Nat) (h9 : 9 ≤ N)
    (h63 : N < 2 ^ 63) (hfuel : N + 1 ≤ fuel) :
    ∃ b, InitBlackrock fuel N seed rounds =
        .ok { inputSize := N, a := (initFactors N).1, b := b, seed := seed, rounds := rounds } ∧
      1 ≤ (initFactors N).1 ∧ (initFactors N).1 < 2 ^ 32 ∧ (initFactors N).2 ≤ b ∧
      N < (initFactors N).1 * b ∧ (initFactors N).1 * b < 2 ^ 64 ∧
      ∀ x, (initFactors N).2 ≤ x → x < b → (initFactors N).1 * x ≤ N := by
  obtain ⟨b1, b2, _, b4⟩ := initFactors_bounds (P := 9) (Q := 2 ^ 63) (L := 3)
    (H := 3037000500) h9 (by omega) (rep_small (by norm_num)) h9
    ⟨1, 63, by norm_num, by norm_num⟩ (by omega) (by norm_num) (by norm_num) (by norm_num)
    (by norm_num) (by norm_num) (by norm_num)
  have hprod : (initFactors N).1 * (initFactors N).2 < 2 ^ 64 :=
    lt_of_le_of_lt (Nat.mul_le_mul b2 b4) (by norm_num)
  obtain ⟨c, hc1, hc2, hc3, hc4, hc5⟩ :=
    initLoop_ok (N := N) (a := (initFactors N).1) (by omega) (by omega) fuel
      (initFactors N).2 (by omega) hprod
  refine ⟨c, ?_, by omega, by omega, hc2, hc3, hc4, hc5⟩
  unfold InitBlackrock
  simp only [hc1, Outcome.bind_ok]

/-- The engine of `InitBlackrock(1000, seed, rounds)`: the switch gives `(29, 34)` and
the loop increments `b` once. -/
theorem InitBlackrock_1000 (fuel seed : Nat) (rounds : Int) :
    InitBlackrock (fuel + 1) 1000 seed rounds =
      .ok { inputSize := 1000, a := 29, b := 35, seed := seed, rounds := rounds } := by
  have h : initFactors 1000 = (29, 34) :=
    initFactors_exact (t := 31) (by decide) (by norm_num) (by decide) (by decide)
  unfold InitBlackrock
  simp only [h]
  cases fuel <;> rfl

/-- The engine of `InitBlackrock(9045, seed, rounds)`: the switch gives `(93, 98)` and
the loop does not run. -/
theorem InitBlackrock_9045 (fuel seed : Nat) (rounds : Int) :
    InitBlackrock fuel 9045 seed rounds =
      .ok { inputSize := 9045, a := 93, b := 98, seed := seed, rounds := rounds } := by
  have h : initFactors 9045 = (93, 98) :=
    initFactors_exact (t := 95) (by decide) (by norm_num) (by decide) (by decide)
  unfold InitBlackrock
  simp only [h]
  cases fuel <;> rfl

/-- The constructor on the sizes 1, 2, 3, 6 and 8 of the switch. -/
theorem InitBlackrock_table (fuel seed : Nat) (rounds : Int) :
    InitBlackrock (fuel + 1) 1 seed rounds = .ok ⟨1, 1, 2, seed, rounds⟩ ∧
    InitBlackrock (fuel + 1) 2 seed rounds = .ok ⟨2, 1, 3, seed, rounds⟩ ∧
    InitBlackrock (fuel + 1) 3 seed rounds = .ok ⟨3, 2, 2, seed, rounds⟩ ∧
    InitBlackrock (fuel + 1) 6 seed rounds = .ok ⟨6, 2, 4, seed, rounds⟩ ∧
    InitBlackrock (fuel + 1) 8 seed rounds = .ok ⟨8, 3, 3, seed, rounds⟩ := by
  refine ⟨?_, ?_, ?_, ?_, ?_⟩ <;> cases fuel <;> rfl

/-- The loops of `Shuffle` and `Unshuffle` return nothing but values below `N`. -/
theorem walk_result (e : Nat → Nat) (N : Nat) :
    ∀ fuel c, (∃ v, v < N ∧ walk e N fuel c = .ok v) ∨ walk e N fuel c = .outOfFuel := by
  intro fuel
  induction fuel with
  | zero =>
    intro c
    by_cases hc : c ≥ N
    · right; simp [walk, hc]
    · left; exact ⟨c, by omega, by simp [walk, hc]⟩
  | succ f ih =>
    intro c
    by_cases hc : c ≥ N
    · rw [walk, if_pos hc]; exact ih (e c)
    · left; exact ⟨c, by omega, by simp [walk, hc]⟩

/-! ## The factors of the default branch and the integer square root -/

theorem log2_eq_of {n k : Nat} (h1 : 2 ^ k ≤ n) (h2 : n < 2 ^ (k + 1)) : Nat.log2 n = k := by
  have hn : n ≠ 0 := by
    have := Nat.two_pow_pos k
    omega
  have hlt : Nat.log2 n < k + 1 := (Nat.log2_lt hn).mpr h2
  have hge : ¬ Nat.log2 n < k := fun h => by
    have := (Nat.log2_lt hn).mp h
    omega
  omega

theorem round53_rep {c : Nat} (hc : Rep c) : round53 c = c :=
  Nat.le_antisymm (round53_le hc (le_refl c)) (le_round53 hc (le_refl c))

/-- The rounding of the square root stays at `c` when the root is below the midpoint
of `c` and its successor `c + u` among the numbers with 53 bits. -/
theorem sqrtFloat64_le_mid {c u j x : Nat} (hu : u = 2 ^ j) (hdvd : u ∣ c)
    (hlo : 2 ^ 52 * u ≤ c) (hhi : c + u ≤ 2 ^ 53 * u)
    (h : 4 * (x * 2 ^ 104) < (2 * c + u) * (2 * c + u)) : sqrtFloat64 x ≤ c := by
  have hupos : 0 < u := by rw [hu]; exact Nat.two_pow_pos j
  obtain ⟨c1, hc1⟩ := hdvd
  have hc1lt : c1 < 2 ^ 53 := by
    have : u * c1 < u * 2 ^ 53 := by rw [← hc1, Nat.mul_comm u]; omega
    exact Nat.lt_of_mul_lt_mul_left this
  have hrep : Rep c := ⟨c1, j, by rw [hc1, hu, Nat.mul_comm], hc1lt⟩
  have hSlt : Nat.sqrt (x * 2 ^ 104) < c + u := by
    by_contra hcon
    have hge : c + u ≤ Nat.sqrt (x * 2 ^ 104) := by omega
    have h2 : 2 * c + u ≤ 2 * Nat.sqrt (x * 2 ^ 104) := by omega
    have h3 := Nat.mul_le_mul h2 h2
    have h4 := Nat.sqrt_le (x * 2 ^ 104)
    have h5 : 2 * Nat.sqrt (x * 2 ^ 104) * (2 * Nat.sqrt (x * 2 ^ 104)) =
        4 * (Nat.sqrt (x * 2 ^ 104) * Nat.sqrt (x * 2 ^ 104)) := by ring
    omega
  by_cases hSc : Nat.sqrt (x * 2 ^ 104) < c
  · apply sqrtFloat64_le hrep
    have h1 := Nat.lt_succ_sqrt (x * 2 ^ 104)
    have h2 : Nat.succ (Nat.sqrt (x * 2 ^ 104)) ≤ c := hSc
    have h3 := Nat.mul_le_mul h2 h2
    omega
  · have hcS : c ≤ Nat.sqrt (x * 2 ^ 104) := by omega
    have hlog : Nat.log2 (Nat.sqrt (x * 2 ^ 104)) = j + 52 := by
      apply log2_eq_of
      · have : 2 ^ (j + 52) = 2 ^ 52 * u := by rw [hu, Nat.pow_add, Nat.mul_comm]
        omega
      · have : 2 ^ (j + 52 + 1) = 2 ^ 53 * u := by
          rw [hu, (by omega : j + 52 + 1 = j + 53), Nat.pow_add, Nat.mul_comm]
        omega
    have hk : Nat.log2 (Nat.sqrt (x * 2 ^ 104)) - 52 = j := by omega
    have hcu : c1 * u = c := by rw [hc1, Nat.mul_comm]
    have hq : Nat.sqrt (x * 2 ^ 104) / u = c1 := by
      apply Nat.div_eq_of_lt_le
      · rw [hcu]; exact hcS
      · rw [Nat.succ_mul, hcu]; exact hSlt
    have hh : (2 * c1 + 1) * u = 2 * c + u := by
      rw [Nat.add_mul, Nat.one_mul, Nat.mul_assoc, hcu]
    unfold sqrtFloat64
    simp only [hk, ← hu, hq, hh, if_pos h, hcu]
    exact le_refl c

theorem initFactors_fst_of_foo {N L H : Nat} (h9 : 9 ≤ N) (hN : N < 2 ^ 64)
    (h1 : L ≤ sqrtFloat64 (round53 N)) (h2 : sqrtFloat64 (round53 N) ≤ H)
    (hL : Rep (L - 2 * 2 ^ 52)) (hH : Rep (H - 2 * 2 ^ 52)) (hH64 : H < 2 ^ 116) :
    (L - 2 * 2 ^ 52) / 2 ^ 52 ≤ (initFactors N).1 ∧
    (initFactors N).1 ≤ (H - 2 * 2 ^ 52) / 2 ^ 52 := by
  rw [initFactors_default h9]
  have hx : toFloat64 (mul64 N 1) = round53 N := by
    unfold toFloat64 mul64
    rw [Nat.mul_one, Nat.mod_eq_of_lt hN]
  rw [hx]
  have hs1 : L - 2 * 2 ^ 52 ≤ subFloat64 (sqrtFloat64 (round53 N)) 2 :=
    le_round53 hL (Nat.sub_le_sub_right h1 _)
  have hs2 : subFloat64 (sqrtFloat64 (round53 N)) 2 ≤ H - 2 * 2 ^ 52 :=
    round53_le hH (Nat.sub_le_sub_right h2 _)
  have hd1 := Nat.div_le_div_right (c := 2 ^ 52) hs1
  have hd2 := Nat.div_le_div_right (c := 2 ^ 52) hs2
  have hsmall : (H - 2 * 2 ^ 52) / 2 ^ 52 < 2 ^ 64 := by
    rw [Nat.div_lt_iff_lt_mul (Nat.two_pow_pos _)]
    omega
  simp only [floatToUint64]
  rw [Nat.mod_eq_of_lt (by omega)]
  exact ⟨hd1, hd2⟩

theorem initFactors_snd_of_foo {N L H : Nat} (h9 : 9 ≤ N) (hN : N < 2 ^ 64)
    (h1 : L ≤ sqrtFloat64 (round53 N)) (h2 : sqrtFloat64 (round53 N) ≤ H)
    (hL : Rep (L + 3 * 2 ^ 52)) (hH : Rep (H + 3 * 2 ^ 52))
    (hH64 : H + 3 * 2 ^ 52 < 2 ^ 116) :
    (L + 3 * 2 ^ 52) / 2 ^ 52 ≤ (initFactors N).2 ∧
    (initFactors N).2 ≤ (H + 3 * 2 ^ 52) / 2 ^ 52 := by
  rw [initFactors_default h9]
  have hx : toFloat64 (mul64 N 1) = round53 N := by
    unfold toFloat64 mul64
    rw [Nat.mul_one, Nat.mod_eq_of_lt hN]
  rw [hx]
  have ha1 : L + 3 * 2 ^ 52 ≤ addFloat64 (sqrtFloat64 (round53 N)) 3 :=
    le_round53 hL (Nat.add_le_add_right h1 _)
  have ha2 : addFloat64 (sqrtFloat64 (round53 N)) 3 ≤ H + 3 * 2 ^ 52 :=
    round53_le hH (Nat.add_le_add_right h2 _)
  have hd3 := Nat.div_le_div_right (c := 2 ^ 52) ha1
  have hd4 := Nat.div_le_div_right (c := 2 ^ 52) ha2
  have hsmall : (H + 3 * 2 ^ 52) / 2 ^ 52 < 2 ^ 64 := by
    rw [Nat.div_lt_iff_lt_mul (Nat.two_pow_pos _)]
    exact hH64
  simp only [floatToUint64]
  rw [Nat.mod_eq_of_lt (by omega)]
  exact ⟨hd3, hd4⟩

/-- Up to `2 ^ 52 + 2 ^ 27`, excluded, the switch of `InitBlackrock` derives `a = s - 2`
from the integer square root `s` of `inputSize`, and `b = s + 3` or, when the addition
`foo + 3` rounds up, `b = s + 4`; the latter needs `inputSize > s * s + s`. -/
theorem initFactors_sqrt {N : Nat} (h9 : 9 ≤ N) (hN : N < 2 ^ 52 + 2 ^ 27) :
    (initFactors N).1 = Nat.sqrt N - 2 ∧ Nat.sqrt N + 3 ≤ (initFactors N).2 ∧
    (initFactors N).2 ≤ Nat.sqrt N + 4 ∧
    (N ≤ Nat.sqrt N * Nat.sqrt N + Nat.sqrt N → (initFactors N).2 = Nat.sqrt N + 3) := by
  have h1 : Nat.sqrt N * Nat.sqrt N ≤ N := Nat.sqrt_le N
  have h2 : N < (Nat.sqrt N + 1) * (Nat.sqrt N + 1) := Nat.lt_succ_sqrt N
  generalize Nat.sqrt N = t at h1 h2 ⊢
  have ht3 : 3 ≤ t := by
    by_contra hcon
    have : t + 1 ≤ 3 := by omega
    have := Nat.mul_le_mul this this
    omega
  have ht26 : t ≤ 2 ^ 26 := by
    by_contra hcon
    have : 2 ^ 26 + 1 ≤ t := by omega
    have := Nat.mul_le_mul this this
    omega
  have hrn : round53 N = N := round53_rep (rep_small (by omega))
  have hlo : t * 2 ^ 52 ≤ sqrtFloat64 (round53 N) := by
    rw [hrn]
    apply le_sqrtFloat64 (rep_scaled (by omega))
    have : t * 2 ^ 52 * (t * 2 ^ 52) = t * t * 2 ^ 104 := by ring
    rw [this]
    exact Nat.mul_le_mul_right _ h1
  have hhi : sqrtFloat64 (round53 N) ≤ (t + 1) * 2 ^ 52 - 2 ^ 25 := by
    rw [hrn]
    by_cases hcase : t + 1 ≤ 2 ^ 26
    · have hrep : (t + 1) * 2 ^ 52 - 2 ^ 25 = ((t + 1) * 2 ^ 27 - 1) * 2 ^ 25 := by omega
      apply sqrtFloat64_le ⟨(t + 1) * 2 ^ 27 - 1, 25, hrep, by omega⟩
      have hge : 2 ^ 25 ≤ (t + 1) * 2 ^ 52 := by omega
      zify [hge]
      have h2z : (N : Int) + 1 ≤ ((t : Int) + 1) * ((t : Int) + 1) := by exact_mod_cast h2
      have htz : (t : Int) + 1 ≤ 2 ^ 26 := by exact_mod_cast hcase
      nlinarith
    · have ht : t = 2 ^ 26 := by omega
      subst ht
      have hmid : sqrtFloat64 N ≤ (2 ^ 26 + 1) * 2 ^ 52 - 2 ^ 26 := by
        apply sqrtFloat64_le_mid (u := 2 ^ 26) (j := 26) rfl
        · exact ⟨(2 ^ 26 + 1) * 2 ^ 26 - 1, by norm_num⟩
        · norm_num
        · norm_num
        · have hle : 4 * (N * 2 ^ 104) ≤ 4 * ((2 ^ 52 + 2 ^ 27 - 1) * 2 ^ 104) := by omega
          exact lt_of_le_of_lt hle (by norm_num)
      omega
  have hfst := initFactors_fst_of_foo (L := t * 2 ^ 52) (H := (t + 1) * 2 ^ 52 - 2 ^ 25)
    h9 (by omega) hlo hhi
    (by
      have : t * 2 ^ 52 - 2 * 2 ^ 52 = (t - 2) * 2 ^ 52 := by omega
      rw [this]; exact rep_scaled (by omega))
    ⟨(t - 1) * 2 ^ 27 - 1, 25, by omega, by omega⟩ (by omega)
  have hsnd := initFactors_snd_of_foo (L := t * 2 ^ 52) (H := (t + 1) * 2 ^ 52)
    h9 (by omega) hlo (by omega)
    (by
      have : t * 2 ^ 52 + 3 * 2 ^ 52 = (t + 3) * 2 ^ 52 := by omega
      rw [this]; exact rep_scaled (by omega))
    (by
      have : (t + 1) * 2 ^ 52 + 3 * 2 ^ 52 = (t + 4) * 2 ^ 52 := by omega
      rw [this]; exact rep_scaled (by omega))
    (by omega)
  refine ⟨by omega, by omega, by omega, ?_⟩
  intro hsmall
  have hhalf : sqrtFloat64 (round53 N) ≤ (2 * t + 1) * 2 ^ 51 := by
    rw [hrn]
    apply sqrtFloat64_le ⟨2 * t + 1, 51, rfl, by omega⟩
    have : (2 * t + 1) * 2 ^ 51 * ((2 * t + 1) * 2 ^ 51) =
        (4 * (t * t + t) + 1) * 2 ^ 102 := by ring
    rw [this]
    have h104 : N * 2 ^ 104 = (4 * N) * 2 ^ 102 := by ring
    rw [h104]
    exact Nat.mul_le_mul_right _ (by omega)
  have hsnd2 := initFactors_snd_of_foo (L := t * 2 ^ 52) (H := (2 * t + 1) * 2 ^ 51)
    h9 (by omega) hlo hhalf
    (by
      have : t * 2 ^ 52 + 3 * 2 ^ 52 = (t + 3) * 2 ^ 52 := by omega
      rw [this]; exact rep_scaled (by omega))
    ⟨2 * t + 7, 51, by omega, by omega⟩ (by omega)
  omega

/-- The constructor up to `2 ^ 52 + 2 ^ 27`, excluded: `a = s - 2` for the integer
square root `s` of `inputSize`, and `b` is the least number from `s + 3` on with
`a * b > inputSize`. -/
theorem InitBlackrock_sqrt (N seed : Nat) (rounds : Int) (fuel : Nat) (h9 : 9 ≤ N)
    (hN : N < 2 ^ 52 + 2 ^ 27) (hfuel : N + 1 ≤ fuel) :
    ∃ b, InitBlackrock fuel N seed rounds =
        .ok { inputSize := N, a := Nat.sqrt N - 2, b := b, seed := seed, rounds := rounds } ∧
      Nat.sqrt N + 3 ≤ b ∧ N < (Nat.sqrt N - 2) * b ∧
      ∀ x, Nat.sqrt N + 3 ≤ x → x < b → (Nat.sqrt N - 2) * x ≤ N := by
  obtain ⟨f1, f2, f3, f4⟩ := initFactors_sqrt h9 hN
  obtain ⟨b, hb1, _, _, hb4, hb5, _, hb7⟩ :=
    InitBlackrock_ok N seed rounds fuel h9 (by omega) hfuel
  rw [f1] at hb1 hb5 hb7
  refine ⟨b, hb1, by omega, hb5, ?_⟩
  intro x hx1 hx2
  by_cases hx : (initFactors N).2 ≤ x
  · exact hb7 x hx hx2
  · have hxe : x = Nat.sqrt N + 3 := by omega
    have hbig : Nat.sqrt N * Nat.sqrt N + Nat.sqrt N < N := by
      by_contra hcon
      have := f4 (by omega)
      omega
    have h3 : 3 ≤ Nat.sqrt N := by
      rw [Nat.le_sqrt]
      omega
    rw [hxe]
    obtain ⟨t, ht⟩ : ∃ t, Nat.sqrt N = t + 3 := ⟨Nat.sqrt N - 3, by omega⟩
    rw [ht] at hbig ⊢
    have e1 : (t + 3 - 2) * (t + 3 + 3) = t * t + 7 * t + 6 := by
      rw [(by omega : t + 3 - 2 = t + 1)]
      ring
    have e2 : (t + 3) * (t + 3) + (t + 3) = t * t + 7 * t + 12 := by ring
    omega

/-- At `2 ^ 52 + 2 ^ 27` the square root computed in `float64` rounds up to the next
whole number, `2 ^ 26 + 1`. -/
theorem sqrtFloat64_rounds_up : sqrtFloat64 (2 ^ 52 + 2 ^ 27) = (2 ^ 26 + 1) * 2 ^ 52 := by
  have hS : Nat.sqrt ((2 ^ 52 + 2 ^ 27) * 2 ^ 104) = 302231459407256887492608 :=
    (Nat.eq_sqrt.mpr ⟨by norm_num, by norm_num⟩).symm
  have hk : Nat.log2 302231459407256887492608 = 78 :=
    log2_eq_of (by norm_num) (by norm_num)
  unfold sqrtFloat64
  simp only [hS, hk]
  norm_num

/-- The factors that the switch derives for `2 ^ 52 + 2 ^ 27`. -/
theorem initFactors_rounds_up : initFactors (2 ^ 52 + 2 ^ 27) = (2 ^ 26 - 1, 2 ^ 26 + 4) := by
  have hrn : round53 (2 ^ 52 + 2 ^ 27) = 2 ^ 52 + 2 ^ 27 := round53_rep (rep_small (by norm_num))
  have hfoo : sqrtFloat64 (round53 (2 ^ 52 + 2 ^ 27)) = (2 ^ 26 + 1) * 2 ^ 52 := by
    rw [hrn, sqrtFloat64_rounds_up]
  have hfst := initFactors_fst_of_foo (N := 2 ^ 52 + 2 ^ 27) (L := (2 ^ 26 + 1) * 2 ^ 52)
    (H := (2 ^ 26 + 1) * 2 ^ 52) (by norm_num) (by norm_num) (le_of_eq hfoo.symm)
    (le_of_eq hfoo) ⟨2 ^ 26 - 1, 52, by norm_num, by norm_num⟩
    ⟨2 ^ 26 - 1, 52, by norm_num, by norm_num⟩ (by norm_num)
  have hsnd := initFactors_snd_of_foo (N := 2 ^ 52 + 2 ^ 27) (L := (2 ^ 26 + 1) * 2 ^ 52)
    (H := (2 ^ 26 + 1) * 2 ^ 52) (by norm_num) (by norm_num) (le_of_eq hfoo.symm)
    (le_of_eq hfoo) ⟨2 ^ 26 + 4, 52, by norm_num, by norm_num⟩
    ⟨2 ^ 26 + 4, 52, by norm_num, by norm_num⟩ (by norm_num)
  have c1 : ((2 ^ 26 + 1) * 2 ^ 52 - 2 * 2 ^ 52) / 2 ^ 52 = 2 ^ 26 - 1 := by norm_num
  have c2 : ((2 ^ 26 + 1) * 2 ^ 52 + 3 * 2 ^ 52) / 2 ^ 52 = 2 ^ 26 + 4 := by norm_num
  rw [c1] at hfst
  rw [c2] at hsnd
  exact Prod.ext (Nat.le_antisymm hfst.2 hfst.1) (Nat.le_antisymm hsnd.2 hsnd.1)

/-! ## The network does not overflow -/

theorem grid_fst_lt {a b j : Nat} {s : Nat × Nat} (ha63 : a < 2 ^ 63) (hb63 : b < 2 ^ 63)
    (h : Grid a b j s) : s.1 < 2 ^ 63 := by
  unfold Grid at h
  split at h <;> omega

theorem grid_sum_lt {a b j : Nat} {s : Nat × Nat} (seed : Nat) (ha63 : a < 2 ^ 63)
    (hb63 : b < 2 ^ 63) (h : Grid a b j s) : s.1 + read j s.2 seed < 2 ^ 64 := by
  have h1 := grid_fst_lt ha63 hb63 h
  have h2 := read_lt j s.2 seed
  omega

theorem encryptLoopNat_eq {a b : Nat} (seed : Nat) (ha : 0 < a) (hb : 0 < b)
    (ha63 : a < 2 ^ 63) (hb63 : b < 2 ^ 63) :
    ∀ n j L R, Grid a b j (L, R) →
      encryptLoopNat a b seed n j L R = .ok (encRounds a b seed n j (L, R)) := by
  intro n
  induction n with
  | zero => intro j L R _; rfl
  | succ n ih =>
    intro j L R hg
    have hsum := grid_sum_lt seed ha63 hb63 hg
    have hnext := grid_encRound seed ha hb j (L, R) hg
    simp only [encRound] at hnext
    simp only [encryptLoopNat, encRounds, encRound]
    rw [add64_of_lt hsum] at hnext ⊢
    by_cases hj : j &&& 1 = 1
    · simp only [hj, if_true, mod64_pos _ ha, Outcome.bind_ok] at hnext ⊢
      exact ih (j + 1) R _ hnext
    · simp only [hj, if_false, mod64_pos _ hb, Outcome.bind_ok] at hnext ⊢
      exact ih (j + 1) R _ hnext

/-! ## The claims -/

/-- C1 (round trip).  For an engine with `rounds ≥ 1`, `1 ≤ a < 2 ^ 63`,
`1 ≤ b < 2 ^ 63` and `inputSize ≤ a * b < 2 ^ 64`, and an index `i < inputSize`:
once the loops are granted `a * b - inputSize` iterations, `Shuffle` returns a value
and `Unshuffle` of that value returns `i`. -/
theorem Unshuffle_Shuffle (br : BlackRock) (i fuel : Nat) (hr : 1 ≤ br.rounds)
    (ha : 1 ≤ br.a) (ha63 : br.a < 2 ^ 63) (hb : 1 ≤ br.b) (hb63 : br.b < 2 ^ 63)
    (hN : br.inputSize ≤ br.a * br.b) (hab : br.a * br.b < 2 ^ 64) (hi : i < br.inputSize)
    (hfuel : br.a * br.b - br.inputSize ≤ fuel) :
    (Shuffle fuel br i).bind (Unshuffle fuel br) = .ok i := by
  obtain ⟨k, _, h2, _, _, h5, _, h7⟩ :=
    shuffle_first_return br i (by omega) ha ha63 hb hb63 hN hab hi
  rw [h5 fuel (by omega), Outcome.bind_ok, h7 fuel (by omega)]

/-- C1, at `InitBlackrock(1000, 0, 4)`, whose engine has `a = 29` and `b = 35`, and the
index 7. -/
theorem Unshuffle_Shuffle_witness :
    InitBlackrock 2 1000 0 4 = .ok ⟨1000, 29, 35, 0, 4⟩ ∧
    (Shuffle 15 ⟨1000, 29, 35, 0, 4⟩ 7).bind (Unshuffle 15 ⟨1000, 29, 35, 0, 4⟩) = .ok 7 :=
  ⟨InitBlackrock_1000 1 0 4,
    Unshuffle_Shuffle ⟨1000, 29, 35, 0, 4⟩ 7 15 (by decide) (by decide) (by decide)
      (by decide) (by decide) (by decide) (by decide) (by decide) (by decide)⟩

/-- C2 (bijectivity).  For an engine as in C1, once the loop is granted
`a * b - inputSize` iterations, `Shuffle` returns a value below `inputSize` on every
index below `inputSize`, and every value below `inputSize` is returned for exactly
one such index: each value of `[0, inputSize)` is hit exactly once, which is the count
that the method `verify` compares with 1. -/
theorem Shuffle_bijective (br : BlackRock) (fuel : Nat) (hr : 1 ≤ br.rounds)
    (ha : 1 ≤ br.a) (ha63 : br.a < 2 ^ 63) (hb : 1 ≤ br.b) (hb63 : br.b < 2 ^ 63)
    (hN : br.inputSize ≤ br.a * br.b) (hab : br.a * br.b < 2 ^ 64)
    (hfuel : br.a * br.b - br.inputSize ≤ fuel) :
    (∀ i, i < br.inputSize → ∃ v, v < br.inputSize ∧ Shuffle fuel br i = .ok v) ∧
    (∀ v, v < br.inputSize → ∃! i, i < br.inputSize ∧ Shuffle fuel br i = .ok v) :=
  shuffle_bijection br fuel (by omega) ha ha63 hb hb63 hN hab hfuel

/-- C2, at `InitBlackrock(9045, 0, 4)`, whose engine has `a = 93` and `b = 98`. -/
theorem Shuffle_bijective_witness :
    InitBlackrock 0 9045 0 4 = .ok ⟨9045, 93, 98, 0, 4⟩ ∧
    (∀ i, i < 9045 → ∃ v, v < 9045 ∧ Shuffle 69 ⟨9045, 93, 98, 0, 4⟩ i = .ok v) ∧
    (∀ v, v < 9045 → ∃! i, i < 9045 ∧ Shuffle 69 ⟨9045, 93, 98, 0, 4⟩ i = .ok v) :=
  ⟨InitBlackrock_9045 0 0 4,
    Shuffle_bijective ⟨9045, 93, 98, 0, 4⟩ 69 (by decide) (by decide) (by decide)
      (by decide) (by decide) (by decide) (by decide) (by decide)⟩

/-- C3 (cycle walking terminates in range).  For an engine as in C1 and `m < inputSize`
there is a `k` with `1 ≤ k ≤ a * b - inputSize + 1` such that the `k`-th iterate of
`encrypt` on `m` is the first one below `inputSize`, and `Shuffle` returns exactly
this iterate, after `k` calls of `encrypt`: `k - 1` iterations of the loop are enough
and fewer are not. -/
theorem Shuffle_first_iterate (br : BlackRock) (m : Nat) (hr : 1 ≤ br.rounds)
    (ha : 1 ≤ br.a) (ha63 : br.a < 2 ^ 63) (hb : 1 ≤ br.b) (hb63 : br.b < 2 ^ 63)
    (hN : br.inputSize ≤ br.a * br.b) (hab : br.a * br.b < 2 ^ 64) (hm : m < br.inputSize) :
    ∃ k v, 1 ≤ k ∧ k ≤ br.a * br.b - br.inputSize + 1 ∧
      encryptIter br k m = .ok v ∧ v < br.inputSize ∧
      (∀ j, 1 ≤ j → j < k → ∃ w, encryptIter br j m = .ok w ∧ br.inputSize ≤ w) ∧
      (∀ fuel, k - 1 ≤ fuel → Shuffle fuel br m = .ok v) ∧
      (∀ fuel, fuel < k - 1 → Shuffle fuel br m = .outOfFuel) := by
  obtain ⟨k, h1, h2, h3, h4, h5, h6, _⟩ :=
    shuffle_first_return br m (by omega) ha ha63 hb hb63 hN hab hm
  refine ⟨k, _, h1, h2, encryptIter_eq br ha hb m k, h3, ?_, h5, h6⟩
  intro j hj1 hjk
  exact ⟨_, encryptIter_eq br ha hb m j, h4 j hj1 hjk⟩

/-- C3, at the engine of `InitBlackrock(1000, 0, 4)` and the index 7. -/
theorem Shuffle_first_iterate_witness :
    ∃ k v, 1 ≤ k ∧ k ≤ 29 * 35 - 1000 + 1 ∧
      encryptIter ⟨1000, 29, 35, 0, 4⟩ k 7 = .ok v ∧ v < 1000 ∧
      (∀ j, 1 ≤ j → j < k →
        ∃ w, encryptIter ⟨1000, 29, 35, 0, 4⟩ j 7 = .ok w ∧ 1000 ≤ w) ∧
      (∀ fuel, k - 1 ≤ fuel → Shuffle fuel ⟨1000, 29, 35, 0, 4⟩ 7 = .ok v) ∧
      (∀ fuel, fuel < k - 1 → Shuffle fuel ⟨1000, 29, 35, 0, 4⟩ 7 = .outOfFuel) :=
  Shuffle_first_iterate ⟨1000, 29, 35, 0, 4⟩ 7 (by decide) (by decide) (by decide)
    (by decide) (by decide) (by decide) (by decide) (by decide)

/-- C4 (Feistel inverse).  For `r ≥ 1`, `1 ≤ a < 2 ^ 63`, `1 ≤ b < 2 ^ 63`,
`a * b < 2 ^ 64` and `m < a * b`, odd `r` and even `r` alike, `encrypt` returns a
value and `unencrypt` of that value returns `m`. -/
theorem unencrypt_encrypt (r : Int) (a b m seed : Nat) (hr : 1 ≤ r) (ha : 1 ≤ a)
    (ha63 : a < 2 ^ 63) (hb : 1 ≤ b) (hb63 : b < 2 ^ 63) (hab : a * b < 2 ^ 64)
    (hm : m < a * b) :
    (encrypt r a b m seed).bind (fun c => unencrypt r a b c seed) = .ok m := by
  rw [encrypt_eq r m seed ha hb, Outcome.bind_ok, unencrypt_eq r _ seed ha hb,
    unencryptVal_encryptVal seed (by omega) ha hb ha63 hb63 hab hm]

/-- C4, for three rounds on the grid `29 × 35`. -/
theorem unencrypt_encrypt_witness :
    (encrypt 3 29 35 1014 5).bind (fun c => unencrypt 3 29 35 c 5) = .ok 1014 :=
  unencrypt_encrypt 3 29 35 1014 5 (by decide) (by decide) (by decide) (by decide)
    (by decide) (by decide) (by decide)

/-- C5 (the grid covers the range).  For `9 ≤ N < 2 ^ 63`, every seed and every number
of rounds, `InitBlackrock` returns an engine (the loop needs at most `N + 1`
iterations) with `inputSize = N` and `a * b ≥ N`, the product taken in the natural
numbers. -/
theorem InitBlackrock_covers (N seed : Nat) (rounds : Int) (fuel : Nat) (h9 : 9 ≤ N)
    (h63 : N < 2 ^ 63) (hfuel : N + 1 ≤ fuel) :
    ∃ br, InitBlackrock fuel N seed rounds = .ok br ∧ br.inputSize = N ∧
      N ≤ br.a * br.b := by
  obtain ⟨b, h1, _, _, _, h5, _⟩ := InitBlackrock_ok N seed rounds fuel h9 h63 hfuel
  exact ⟨_, h1, rfl, le_of_lt h5⟩

/-- C5, at `InitBlackrock(1000, 0, 4)`. -/
theorem InitBlackrock_covers_witness :
    ∃ br, InitBlackrock 1001 1000 0 4 = .ok br ∧ br.inputSize = 1000 ∧
      1000 ≤ br.a * br.b :=
  InitBlackrock_covers 1000 0 4 1001 (by decide) (by decide) (by decide)

/-- C6 (no division by zero on the default branch).  For every `uint64` size `N > 8`
the factor `a` that the switch of `InitBlackrock` derives is at least 1, it is exactly
1 for `N = 9`, and in an engine that `InitBlackrock` returns for such an `N` neither
`encrypt` nor `unencrypt` divides by zero. -/
theorem InitBlackrock_a_pos (N : Nat) (h9 : 9 ≤ N) (hN : N < 2 ^ 64) :
    1 ≤ (initFactors N).1 ∧ (initFactors 9).1 = 1 ∧
    ∀ fuel seed rounds br, InitBlackrock fuel N seed rounds = .ok br →
      br.a = (initFactors N).1 ∧
      ∀ m, encrypt br.rounds br.a br.b m br.seed ≠ .divideByZero ∧
        unencrypt br.rounds br.a br.b m br.seed ≠ .divideByZero := by
  obtain ⟨b1, _, _, _⟩ := initFactors_bounds (P := 9) (Q := 2 ^ 64) (L := 3)
    (H := 2 ^ 32) h9 hN (rep_small (by norm_num)) h9
    ⟨1, 64, by norm_num, by norm_num⟩ (by omega) (by norm_num) (by norm_num) (by norm_num)
    (by norm_num) (by norm_num) (by norm_num)
  have h9eq : initFactors 9 = (1, 6) :=
    initFactors_exact (t := 3) (by decide) (by norm_num) (by decide) (by decide)
  refine ⟨b1, by rw [h9eq], ?_⟩
  intro fuel seed rounds br hbr
  simp only [InitBlackrock] at hbr
  cases hloop : initLoop N (initFactors N).1 fuel (initFactors N).2 with
  | ok c =>
    rw [hloop, Outcome.bind_ok] at hbr
    have hexit := initLoop_exit fuel _ c hloop
    have hc : 0 < c := by
      rcases Nat.eq_zero_or_pos c with h0 | hpos
      · rw [h0] at hexit
        simp [mul64] at hexit
      · exact hpos
    cases hbr
    refine ⟨rfl, fun m => ?_⟩
    simp only []
    rw [encrypt_eq rounds m seed b1 hc, unencrypt_eq rounds m seed b1 hc]
    exact ⟨by simp, by simp⟩
  | divideByZero => rw [hloop] at hbr; cases hbr
  | outOfFuel => rw [hloop] at hbr; cases hbr

/-- C6, at `N = 9`. -/
theorem InitBlackrock_a_pos_witness :
    1 ≤ (initFactors 9).1 ∧ (initFactors 9).1 = 1 ∧
    ∀ fuel seed rounds br, InitBlackrock fuel 9 seed rounds = .ok br →
      br.a = (initFactors 9).1 ∧
      ∀ m, encrypt br.rounds br.a br.b m br.seed ≠ .divideByZero ∧
        unencrypt br.rounds br.a br.b m br.seed ≠ .divideByZero :=
  InitBlackrock_a_pos 9 (by decide) (by decide)

/-- C7, as stated, fails: for `rangeSize = 1` no run of `InitBlackrock` returns an
engine with the factors `(1, 1)` of the table; the engine has `(1, 2)`. -/
theorem InitBlackrock_one_not_table :
    (¬ ∃ fuel br, InitBlackrock fuel 1 0 4 = .ok br ∧ (br.a, br.b) = (1, 1)) ∧
    InitBlackrock 1 1 0 4 = .ok ⟨1, 1, 2, 0, 4⟩ := by
  refine ⟨?_, by decide⟩
  rintro ⟨fuel, br, h, hab⟩
  cases fuel with
  | zero =>
    have h0 : InitBlackrock 0 1 0 4 = .outOfFuel := by decide
    rw [h0] at h
    cases h
  | succ f =>
    rw [(InitBlackrock_table f 0 4).1] at h
    cases h
    simp at hab

/-- C7, amended.  For `rangeSize` 1, 2, 3, 6 and 8 the switch of `InitBlackrock` sets
the factors to the table values `(1, 1)`, `(1, 2)`, `(2, 2)`, `(2, 3)`, `(3, 3)` (and
to `(0, 0)` for `rangeSize = 0`); the loop that follows increments `b` while
`a * b <= rangeSize`, so the engine returned has the factors `(1, 2)`, `(1, 3)`,
`(2, 2)`, `(2, 4)`, `(3, 3)`. -/
theorem InitBlackrock_small (fuel seed : Nat) (rounds : Int) :
    (initFactors 0 = (0, 0) ∧ initFactors 1 = (1, 1) ∧ initFactors 2 = (1, 2) ∧
      initFactors 3 = (2, 2) ∧ initFactors 6 = (2, 3) ∧ initFactors 8 = (3, 3)) ∧
    InitBlackrock (fuel + 1) 1 seed rounds = .ok ⟨1, 1, 2, seed, rounds⟩ ∧
    InitBlackrock (fuel + 1) 2 seed rounds = .ok ⟨2, 1, 3, seed, rounds⟩ ∧
    InitBlackrock (fuel + 1) 3 seed rounds = .ok ⟨3, 2, 2, seed, rounds⟩ ∧
    InitBlackrock (fuel + 1) 6 seed rounds = .ok ⟨6, 2, 4, seed, rounds⟩ ∧
    InitBlackrock (fuel + 1) 8 seed rounds = .ok ⟨8, 3, 3, seed, rounds⟩ :=
  ⟨⟨rfl, rfl, rfl, rfl, rfl, rfl⟩, InitBlackrock_table fuel seed rounds⟩

/-- C8, the code at the failing inputs: for `rangeSize` 4, 5 and 7 (the empty cases
of the switch leave `a = b = 0`), for `rangeSize = 0`, and for the largest size
`2 ^ 64 - 1`, the loop of `InitBlackrock` never stops, whatever number of iterations
it is granted. -/
theorem InitBlackrock_diverges (fuel seed : Nat) (rounds : Int) :
    InitBlackrock fuel 4 seed rounds = .outOfFuel ∧
    InitBlackrock fuel 5 seed rounds = .outOfFuel ∧
    InitBlackrock fuel 7 seed rounds = .outOfFuel ∧
    InitBlackrock fuel 0 seed rounds = .outOfFuel ∧
    InitBlackrock fuel (2 ^ 64 - 1) seed rounds = .outOfFuel := by
  have hz : ∀ N, (initFactors N).1 = 0 → InitBlackrock fuel N seed rounds = .outOfFuel := by
    intro N h
    unfold InitBlackrock
    simp only [h, initLoop_zero]
    rfl
  refine ⟨hz 4 rfl, hz 5 rfl, hz 7 rfl, hz 0 rfl, ?_⟩
  unfold InitBlackrock
  simp only [initLoop_max]
  rfl

/-- C9, as stated, fails: on the engine of `InitBlackrock(1000, 0, 4)` the calls
`Shuffle(1000)`, `Unshuffle(1000)`, `Shuffle(1014)` and `Unshuffle(5000)` return
values. -/
theorem Shuffle_out_of_range_returns :
    InitBlackrock 2 1000 0 4 = .ok ⟨1000, 29, 35, 0, 4⟩ ∧
    Shuffle 0 ⟨1000, 29, 35, 0, 4⟩ 1000 = .ok 429 ∧
    Unshuffle 0 ⟨1000, 29, 35, 0, 4⟩ 1000 = .ok 502 ∧
    Shuffle 0 ⟨1000, 29, 35, 0, 4⟩ 1014 = .ok 822 ∧
    Unshuffle 0 ⟨1000, 29, 35, 0, 4⟩ 5000 = .ok 544 :=
  ⟨InitBlackrock_1000 1 0 4, by decide, by decide, by decide, by decide⟩

/-- C9, amended.  `Shuffle` and `Unshuffle` do not check the index.  For an engine with
`a ≥ 1` and `b ≥ 1` and for every index `m`, in particular every `m ≥ inputSize`,
each of them either returns a value below `inputSize` or is still running after any
number of iterations; no error is raised.  The second case occurs: on the engine of
`InitBlackrock(9, 17, 4)` the call `Shuffle(9)` never returns. -/
theorem Shuffle_no_range_check (br : BlackRock) (m fuel : Nat) (ha : 1 ≤ br.a)
    (hb : 1 ≤ br.b) :
    ((∃ v, v < br.inputSize ∧ Shuffle fuel br m = .ok v) ∨ Shuffle fuel br m = .outOfFuel) ∧
    ((∃ v, v < br.inputSize ∧ Unshuffle fuel br m = .ok v) ∨
      Unshuffle fuel br m = .outOfFuel) ∧
    Shuffle fuel ⟨9, 1, 10, 17, 4⟩ 9 = .outOfFuel := by
  refine ⟨?_, ?_, ?_⟩
  · rw [Shuffle_eq fuel br m ha hb]
    exact walk_result _ _ _ _
  · rw [Unshuffle_eq fuel br m ha hb]
    exact walk_result _ _ _ _
  · rw [Shuffle_eq fuel ⟨9, 1, 10, 17, 4⟩ 9 (by decide) (by decide)]
    have hfix : (fun x => encryptVal 4 1 10 x 17) 9 = 9 := by decide
    show walk (fun x => encryptVal 4 1 10 x 17) 9 fuel ((fun x => encryptVal 4 1 10 x 17) 9)
      = .outOfFuel
    rw [hfix]
    apply walk_outOfFuel
    intro j _
    rw [Function.iterate_fixed (f := fun x => encryptVal 4 1 10 x 17) hfix j]

/-- C9 amended, at the engine of `InitBlackrock(1000, 0, 4)` and the index 1000. -/
theorem Shuffle_no_range_check_witness :
    ((∃ v, v < 1000 ∧ Shuffle 0 ⟨1000, 29, 35, 0, 4⟩ 1000 = .ok v) ∨
      Shuffle 0 ⟨1000, 29, 35, 0, 4⟩ 1000 = .outOfFuel) ∧
    ((∃ v, v < 1000 ∧ Unshuffle 0 ⟨1000, 29, 35, 0, 4⟩ 1000 = .ok v) ∨
      Unshuffle 0 ⟨1000, 29, 35, 0, 4⟩ 1000 = .outOfFuel) ∧
    Shuffle 0 ⟨9, 1, 10, 17, 4⟩ 9 = .outOfFuel :=
  Shuffle_no_range_check ⟨1000, 29, 35, 0, 4⟩ 1000 0 (by decide) (by decide)

/-- C10, as stated, fails: `InitBlackrock(1000, 0, 0)` returns an engine, with
`rounds = 0`. -/
theorem InitBlackrock_zero_rounds_returns :
    InitBlackrock 2 1000 0 0 = .ok ⟨1000, 29, 35, 0, 0⟩ :=
  InitBlackrock_1000 1 0 0

/-- C10, amended.  `InitBlackrock` does not check `rounds`.  For every size `N` among
1, 2, 3, 6, 8 or with `9 ≤ N < 2 ^ 63` and every seed, `InitBlackrock(N, seed, 0)`
returns an engine with `inputSize = N`, that seed and `rounds = 0`. -/
theorem InitBlackrock_zero_rounds (N seed fuel : Nat)
    (hN : N = 1 ∨ N = 2 ∨ N = 3 ∨ N = 6 ∨ N = 8 ∨ (9 ≤ N ∧ N < 2 ^ 63))
    (hfuel : N + 1 ≤ fuel) :
    ∃ br, InitBlackrock fuel N seed 0 = .ok br ∧ br.inputSize = N ∧ br.seed = seed ∧
      br.rounds = 0 := by
  obtain ⟨f, rfl⟩ : ∃ f, fuel = f + 1 := ⟨fuel - 1, by omega⟩
  obtain ⟨t1, t2, t3, t6, t8⟩ := InitBlackrock_table f seed 0
  rcases hN with h | h | h | h | h | ⟨h9, h63⟩
  · subst h; exact ⟨_, t1, rfl, rfl, rfl⟩
  · subst h; exact ⟨_, t2, rfl, rfl, rfl⟩
  · subst h; exact ⟨_, t3, rfl, rfl, rfl⟩
  · subst h; exact ⟨_, t6, rfl, rfl, rfl⟩
  · subst h; exact ⟨_, t8, rfl, rfl, rfl⟩
  · obtain ⟨b, h1, _⟩ := InitBlackrock_ok N seed 0 (f + 1) h9 h63 hfuel
    exact ⟨_, h1, rfl, rfl, rfl⟩

/-- C10 amended, at `InitBlackrock(1000, 0, 0)`. -/
theorem InitBlackrock_zero_rounds_witness :
    ∃ br, InitBlackrock 1001 1000 0 0 = .ok br ∧ br.inputSize = 1000 ∧ br.seed = 0 ∧
      br.rounds = 0 :=
  InitBlackrock_zero_rounds 1000 0 1001
    (Or.inr (Or.inr (Or.inr (Or.inr (Or.inr ⟨by decide, by decide⟩))))) (by decide)

/-- C11 (the network stays inside its grid).  For `r ≥ 1`, `1 ≤ a < 2 ^ 63`,
`1 ≤ b < 2 ^ 63` and `a * b < 2 ^ 64`, `encrypt` returns a value below `a * b` on every
`m < a * b`, and every value below `a * b` is returned for exactly one such `m`:
`encrypt` is a bijection of `[0, a * b)` onto itself. -/
theorem encrypt_grid_bijection (r : Int) (a b seed : Nat) (hr : 1 ≤ r) (ha : 1 ≤ a)
    (ha63 : a < 2 ^ 63) (hb : 1 ≤ b) (hb63 : b < 2 ^ 63) (hab : a * b < 2 ^ 64) :
    (∀ m, m < a * b → ∃ c, c < a * b ∧ encrypt r a b m seed = .ok c) ∧
    (∀ c, c < a * b → ∃! m, m < a * b ∧ encrypt r a b m seed = .ok c) := by
  have hr0 : 0 ≤ r := by omega
  have hmaps : ∀ x, x < a * b → encryptVal r a b x seed < a * b :=
    fun x hx => encryptVal_lt seed hr0 ha hb hab hx
  have hinj := encryptVal_inj seed hr0 ha hb ha63 hb63 hab
  constructor
  · intro m hm
    exact ⟨_, hmaps m hm, encrypt_eq r m seed ha hb⟩
  · intro c hc
    obtain ⟨x, hx, hxc⟩ := surj_of_inj hmaps hinj c hc
    refine ⟨x, ⟨hx, by rw [encrypt_eq r x seed ha hb, hxc]⟩, ?_⟩
    intro y ⟨hy, hyc⟩
    rw [encrypt_eq r y seed ha hb] at hyc
    exact hinj y x hy hx (by rw [Outcome.ok.inj hyc, hxc])

/-- C11, for four rounds on the grid `29 × 35`. -/
theorem encrypt_grid_bijection_witness :
    (∀ m, m < 29 * 35 → ∃ c, c < 29 * 35 ∧ encrypt 4 29 35 m 0 = .ok c) ∧
    (∀ c, c < 29 * 35 → ∃! m, m < 29 * 35 ∧ encrypt 4 29 35 m 0 = .ok c) :=
  encrypt_grid_bijection 4 29 35 0 (by decide) (by decide) (by decide) (by decide)
    (by decide) (by decide)

/-- C14 (reverse round trip).  For an engine as in C1 and `i < inputSize`, once the
loops are granted `a * b - inputSize` iterations, `Unshuffle` returns a value below
`inputSize` and `Shuffle` of that value returns `i`; with C1 this makes `Unshuffle` a
two-sided inverse of `Shuffle` on `[0, inputSize)`. -/
theorem Shuffle_Unshuffle (br : BlackRock) (i fuel : Nat) (hr : 1 ≤ br.rounds)
    (ha : 1 ≤ br.a) (ha63 : br.a < 2 ^ 63) (hb : 1 ≤ br.b) (hb63 : br.b < 2 ^ 63)
    (hN : br.inputSize ≤ br.a * br.b) (hab : br.a * br.b < 2 ^ 64) (hi : i < br.inputSize)
    (hfuel : br.a * br.b - br.inputSize ≤ fuel) :
    (∃ v, v < br.inputSize ∧ Unshuffle fuel br i = .ok v ∧ Shuffle fuel br v = .ok i) ∧
    (Unshuffle fuel br i).bind (Shuffle fuel br) = .ok i ∧
    (Shuffle fuel br i).bind (Unshuffle fuel br) = .ok i := by
  obtain ⟨k, _, _, h3, h4, h5⟩ :=
    unshuffle_first_return br i (by omega) ha ha63 hb hb63 hN hab hi
  obtain ⟨k1, _, _, _, _, s5, _, s7⟩ :=
    shuffle_first_return br i (by omega) ha ha63 hb hb63 hN hab hi
  refine ⟨⟨_, h3, h4 fuel (by omega), h5 fuel (by omega)⟩, ?_, ?_⟩
  · rw [h4 fuel (by omega), Outcome.bind_ok, h5 fuel (by omega)]
  · rw [s5 fuel (by omega), Outcome.bind_ok, s7 fuel (by omega)]

/-- C14, at the engine of `InitBlackrock(1000, 0, 4)` and the index 7. -/
theorem Shuffle_Unshuffle_witness :
    (∃ v, v < 1000 ∧ Unshuffle 15 ⟨1000, 29, 35, 0, 4⟩ 7 = .ok v ∧
      Shuffle 15 ⟨1000, 29, 35, 0, 4⟩ v = .ok 7) ∧
    (Unshuffle 15 ⟨1000, 29, 35, 0, 4⟩ 7).bind (Shuffle 15 ⟨1000, 29, 35, 0, 4⟩) = .ok 7 ∧
    (Shuffle 15 ⟨1000, 29, 35, 0, 4⟩ 7).bind (Unshuffle 15 ⟨1000, 29, 35, 0, 4⟩) = .ok 7 :=
  Shuffle_Unshuffle ⟨1000, 29, 35, 0, 4⟩ 7 15 (by decide) (by decide) (by decide)
    (by decide) (by decide) (by decide) (by decide) (by decide) (by decide)

/-- C16 (bound on the mixer).  For every round index, value and seed, `read` is below
`2 ^ 31`: the byte shifts by 8, 16 and 24 give zero, so the result is the substituted
byte 0 xor the substituted byte 4 shifted by 23. -/
theorem read_bound (r R seed : Nat) :
    read r R seed < 2 ^ 31 ∧
    read r R seed =
      sboxAt (getByte (R ^^^ ((shl64 seed r) ^^^ (shr64 seed (sub64 64 r)))) 0 seed r) ^^^
      sboxAt (getByte (R ^^^ ((shl64 seed r) ^^^ (shr64 seed (sub64 64 r)))) 4 seed r)
        * 2 ^ 23 :=
  ⟨read_lt r R seed, read_eq r R seed⟩

/-- C17 (zero rounds is the identity).  For an engine with `rounds = 0` and `a ≥ 1`
(whose `inputSize` is a `uint64`; the bound on `a * b` is not needed) and
`i < inputSize`, `encrypt` and `unencrypt` return `i`, and so do `Shuffle` and
`Unshuffle`, without any iteration of their loops. -/
theorem zero_rounds_identity (br : BlackRock) (i fuel : Nat) (hr : br.rounds = 0)
    (ha : 1 ≤ br.a) (hN : br.inputSize < 2 ^ 64) (hi : i < br.inputSize) :
    encrypt br.rounds br.a br.b i br.seed = .ok i ∧
    unencrypt br.rounds br.a br.b i br.seed = .ok i ∧
    Shuffle fuel br i = .ok i ∧ Unshuffle fuel br i = .ok i := by
  have hback : add64 (mul64 br.a (i / br.a)) (i % br.a) = i := by
    have h1 : br.a * (i / br.a) + i % br.a = i := Nat.div_add_mod i br.a
    rw [mul64_of_lt (by omega), add64_of_lt (by omega)]
    exact h1
  have henc : encrypt br.rounds br.a br.b i br.seed = .ok i := by
    rw [hr]
    simp only [encrypt, mod64_pos _ ha, div64_pos _ ha, Outcome.bind_ok, Int.toNat_zero,
      encryptLoop]
    rw [if_neg (by decide), hback]
  have hdec : unencrypt br.rounds br.a br.b i br.seed = .ok i := by
    rw [hr]
    simp only [unencrypt, mod64_pos _ ha, div64_pos _ ha, Outcome.bind_ok, Int.toNat_zero,
      unencryptLoop]
    rw [if_neg (by decide)]
    simp only [Outcome.bind_ok, unencryptLoop]
    rw [hback]
  have hnot : ¬ i ≥ br.inputSize := by omega
  refine ⟨henc, hdec, ?_, ?_⟩
  · rw [Shuffle, henc, Outcome.bind_ok]
    cases fuel <;> simp [shuffleLoop, hnot]
  · rw [Unshuffle, hdec, Outcome.bind_ok]
    cases fuel <;> simp [unshuffleLoop, hnot]

/-- C17, at the engine `⟨1000, 29, 35, 0, 0⟩` and the index 7. -/
theorem zero_rounds_identity_witness :
    encrypt 0 29 35 7 0 = .ok 7 ∧ unencrypt 0 29 35 7 0 = .ok 7 ∧
    Shuffle 0 ⟨1000, 29, 35, 0, 0⟩ 7 = .ok 7 ∧ Unshuffle 0 ⟨1000, 29, 35, 0, 0⟩ 7 = .ok 7 :=
  zero_rounds_identity ⟨1000, 29, 35, 0, 0⟩ 7 0 rfl (by decide) (by decide) (by decide)

/-- C18 (s-box lookups are in bounds).  For every value, byte position, seed and round
index, `getByte` is below 256, the length of `sbox`; hence every access `sbox[...]` of
`read` finds an entry of the table, and `read`, which does nothing else that can
panic, never fails. -/
theorem getByte_in_bounds (R n seed r : Nat) :
    getByte R n seed r < 256 ∧ getByte R n seed r < sbox.length ∧
    sbox[getByte R n seed r]? = some (sboxAt (getByte R n seed r)) := by
  have h : getByte R n seed r < 256 := by
    unfold getByte
    exact Nat.lt_of_le_of_lt Nat.and_le_right (by decide)
  have hl : getByte R n seed r < sbox.length := by rw [sbox_length]; exact h
  refine ⟨h, hl, ?_⟩
  unfold sboxAt
  rw [List.getD_eq_getElem?_getD, List.getElem?_eq_getElem hl]
  rfl

/-- C12, as stated, fails twice.  For `rangeSize = 10` no run of `InitBlackrock`
returns `b = 10`: the loop goes on while `a * b <= 10` and the engine has `b = 11`.
For `rangeSize = 2 ^ 52 + 2 ^ 27`, whose integer square root is `2 ^ 26`, the square
root computed in `float64` rounds up and the engine has `a = 2 ^ 26 - 1`, not
`2 ^ 26 - 2`. -/
theorem InitBlackrock_factors_differ :
    (¬ ∃ fuel br, InitBlackrock fuel 10 0 4 = .ok br ∧ br.a = 1 ∧ br.b = 10) ∧
    InitBlackrock 5 10 0 4 = .ok ⟨10, 1, 11, 0, 4⟩ ∧
    Nat.sqrt (2 ^ 52 + 2 ^ 27) = 2 ^ 26 ∧
    (∀ fuel, InitBlackrock fuel (2 ^ 52 + 2 ^ 27) 0 4 =
      .ok ⟨2 ^ 52 + 2 ^ 27, 2 ^ 26 - 1, 2 ^ 26 + 4, 0, 4⟩) := by
  have h10 : initFactors 10 = (1, 6) :=
    initFactors_exact (t := 3) (by decide) (by norm_num) (by decide) (by decide)
  refine ⟨?_, ?_, ?_, ?_⟩
  · rintro ⟨fuel, br, h, _, hb⟩
    simp only [InitBlackrock, h10] at h
    cases hloop : initLoop 10 1 fuel 6 with
    | ok c =>
      rw [hloop, Outcome.bind_ok] at h
      have hexit := initLoop_exit fuel 6 c hloop
      cases h
      simp only [] at hb
      rw [hb] at hexit
      exact absurd hexit (by decide)
    | divideByZero => rw [hloop] at h; cases h
    | outOfFuel => rw [hloop] at h; cases h
  · simp only [InitBlackrock, h10]
    rfl
  · exact (Nat.eq_sqrt.mpr ⟨by norm_num, by norm_num⟩).symm
  · intro fuel
    simp only [InitBlackrock, initFactors_rounds_up]
    cases fuel <;> simp [initLoop, mul64]

/-- C12, amended.  For `9 ≤ N < 2 ^ 52 + 2 ^ 27`, with `s` the integer square root of
`N`, `InitBlackrock` returns an engine with `a = s - 2` and with `b` the least number
from `s + 3` on such that `a * b > N`. -/
theorem InitBlackrock_factors (N seed : Nat) (rounds : Int) (fuel : Nat) (h9 : 9 ≤ N)
    (hN : N < 2 ^ 52 + 2 ^ 27) (hfuel : N + 1 ≤ fuel) :
    ∃ br, InitBlackrock fuel N seed rounds = .ok br ∧ br.a = Nat.sqrt N - 2 ∧
      Nat.sqrt N + 3 ≤ br.b ∧ N < br.a * br.b ∧
      ∀ x, Nat.sqrt N + 3 ≤ x → x < br.b → br.a * x ≤ N := by
  obtain ⟨b, h1, h2, h3, h4⟩ := InitBlackrock_sqrt N seed rounds fuel h9 hN hfuel
  exact ⟨_, h1, rfl, h2, h3, h4⟩

/-- C12 amended, at `InitBlackrock(10, 0, 4)`, whose engine has `a = 1` and `b = 11`. -/
theorem InitBlackrock_factors_witness :
    ∃ br, InitBlackrock 11 10 0 4 = .ok br ∧ br.a = Nat.sqrt 10 - 2 ∧
      Nat.sqrt 10 + 3 ≤ br.b ∧ 10 < br.a * br.b ∧
      ∀ x, Nat.sqrt 10 + 3 ≤ x → x < br.b → br.a * x ≤ 10 :=
  InitBlackrock_factors 10 0 4 11 (by decide) (by norm_num) (by decide)

/-- C13, the code at the failing input: `read(1, 0, 0)`, the first call of `read` made
by `Shuffle(0)` on an engine with seed 0, returns `0x2C000058`, the substituted byte 0
xor the substituted byte 4 shifted by 23, and not the xor of the three lanes of the
specification, because the shifts by 8, 16 and 24 act on bytes and give zero. -/
theorem read_ne_readSpec :
    read 1 0 0 = 0x2C000058 ∧ readSpec 1 0 0 = 0xB0B0002C74585858 ∧
    read 1 0 0 ≠ readSpec 1 0 0 := by
  decide

/-- C15 (no overflow inside the network).  For `r ≥ 0`, `1 ≤ a < 2 ^ 63`,
`1 ≤ b < 2 ^ 63`, `a * b < 2 ^ 64` and `m < a * b`: after any number `n ≤ r` of
iterations the loop of `encrypt` is in a state `(L, R)` in which the next sum
`L + read(n + 1, R, seed)` is below `2 ^ 64`, the final `a * L + R` (odd `r`) or
`a * R + L` (even `r`) is below `2 ^ 64`, and `encrypt` with `uint64` arithmetic
returns what `encrypt` over the natural numbers returns. -/
theorem encrypt_no_overflow (r : Int) (a b m seed : Nat) (hr : 0 ≤ r) (ha : 1 ≤ a)
    (ha63 : a < 2 ^ 63) (hb : 1 ≤ b) (hb63 : b < 2 ^ 63) (hab : a * b < 2 ^ 64)
    (hm : m < a * b) :
    (∀ n, n ≤ r.toNat → ∃ s : Nat × Nat,
      encryptLoop a b seed n 1 (m % a) (m / a) = .ok s ∧
      s.1 + read (n + 1) s.2 seed < 2 ^ 64) ∧
    (∃ s : Nat × Nat, encryptLoop a b seed r.toNat 1 (m % a) (m / a) = .ok s ∧
      (if r % 2 = 1 then a * s.1 + s.2 else a * s.2 + s.1) < 2 ^ 64) ∧
    encrypt r a b m seed = encryptNat r a b m seed := by
  have hsplit := grid_split ha hm
  have hg := grid_final seed hr ha hb hm
  refine ⟨?_, ?_, ?_⟩
  · intro n _
    refine ⟨_, encryptLoop_eq seed ha hb n 1 _ _, ?_⟩
    have hgn := grid_encRounds seed ha hb n 1 _ hsplit
    rw [Nat.add_comm 1 n] at hgn
    exact grid_sum_lt seed ha63 hb63 hgn
  · refine ⟨_, encryptLoop_eq seed ha hb r.toNat 1 _ _, ?_⟩
    by_cases hodd : r % 2 = 1
    · rw [if_pos hodd] at hg ⊢
      have := join_lt hg.1 hg.2
      omega
    · rw [if_neg hodd] at hg ⊢
      have := join_lt hg.2 hg.1
      omega
  · simp only [encrypt, encryptNat, mod64_pos _ ha, div64_pos _ ha, Outcome.bind_ok,
      encryptLoop_eq seed ha hb, encryptLoopNat_eq seed ha hb ha63 hb63 _ _ _ _ hsplit]
    by_cases hodd : r % 2 = 1
    · rw [if_pos hodd] at hg
      have := join_lt hg.1 hg.2
      rw [if_pos hodd, if_pos hodd, mul64_of_lt (by omega), add64_of_lt (by omega)]
    · rw [if_neg hodd] at hg
      have := join_lt hg.2 hg.1
      rw [if_neg hodd, if_neg hodd, mul64_of_lt (by omega), add64_of_lt (by omega)]

/-- C15, for four rounds on the grid `29 × 35`. -/
theorem encrypt_no_overflow_witness :
    (∀ n, n ≤ (4 : Int).toNat → ∃ s : Nat × Nat,
      encryptLoop 29 35 0 n 1 (7 % 29) (7 / 29) = .ok s ∧
      s.1 + read (n + 1) s.2 0 < 2 ^ 64) ∧
    (∃ s : Nat × Nat, encryptLoop 29 35 0 (4 : Int).toNat 1 (7 % 29) (7 / 29) = .ok s ∧
      (if (4 : Int) % 2 = 1 then 29 * s.1 + s.2 else 29 * s.2 + s.1) < 2 ^ 64) ∧
    encrypt 4 29 35 7 0 = encryptNat 4 29 35 7 0 :=
  encrypt_no_overflow 4 29 35 7 0 (by decide) (by decide) (by decide) (by decide)
    (by decide) (by decide) (by decide)

end BlackrockGo
